import Mathlib

/-!
# idor_enum: a verification development of `app.go`

A shallow embedding of the ID-enumeration and download pipeline of `app.go`.

Modelling conventions.

* A Go `string` is a `List Char`.  Every separator and token the program looks for
  (`"UID"`, `"/"`, `"-"`, `"http://"`) is ASCII, so splitting and replacing at the level of
  characters agrees with Go's byte-level functions on valid UTF-8 text.
* A Go `int` is an `Int` in the 64-bit two's complement range; `uid++` wraps (`wrapInt`).
* Functions of the Go standard library that the program calls (`strconv.Itoa`,
  `strconv.Atoi`, `strings.ReplaceAll`, `strings.Split`, `strings.TrimRight`,
  `filepath.Join`, `regexp.FindAllString`) are modelled from their documented behaviour,
  each under the name of the library function.
* A compiled pattern is an arbitrary search function; what is proved about `extractLinks`
  for every pattern is proved for every search that is leftmost-first, as `regexp`
  documents its matching.  The loop of `FindAllString` is modelled in full.  A concrete
  engine is given only for the simple patterns that are evaluated.
* Goroutines that run a critical section under a mutex are modelled by the order in which
  the critical sections are executed.
-/

namespace IdorEnum

/-! ## Machine integers -/

/-- Width of the Go type `int` on the 64-bit targets. -/
def intSize : Nat := 64

/-- Largest value of the Go type `int`. -/
def maxInt : Int := 2 ^ (intSize - 1) - 1

/-- Smallest value of the Go type `int`. -/
def minInt : Int := -(2 ^ (intSize - 1))

/-- Two's complement wrap-around of an integer result into the range of `int`. -/
def wrapInt (x : Int) : Int := (x + 2 ^ (intSize - 1)) % 2 ^ intSize - 2 ^ (intSize - 1)

/-! ## Strings -/

/-- Go `strconv.Itoa`: decimal digits, with a leading minus sign for negative numbers. -/
def itoa (i : Int) : List Char :=
  if i < 0 then '-' :: Nat.toDigits 10 i.natAbs else Nat.toDigits 10 i.toNat

/-- The characters `strconv.Itoa` can produce. -/
def decimalChars : List Char := ['-', '0', '1', '2', '3', '4', '5', '6', '7', '8', '9']

/-- The scanning loop of Go `strings.Replace` for a non-empty `old`: at each position where
`old` occurs, emit `new` and continue after the occurrence (`skip` counts the characters of
the occurrence still to be passed over); otherwise copy one character. -/
def replaceScan (old new : List Char) : Nat → List Char → List Char
  | _, [] => []
  | skip + 1, _ :: t => replaceScan old new skip t
  | 0, c :: t =>
    if old.isPrefixOf (c :: t) then new ++ replaceScan old new (old.length - 1) t
    else c :: replaceScan old new 0 t

/-- Go `strings.ReplaceAll(s, old, new)`.  With an empty `old` the replacement is inserted
before every character and at the end. -/
def stringsReplaceAll (s old new : List Char) : List Char :=
  if old = new then s
  else if old = [] then s.flatMap (fun c => new ++ [c]) ++ new
  else replaceScan old new 0 s

/-- The placeholder token of the endpoint template. -/
def uidToken : List Char := ['U', 'I', 'D']

/-- Function `replaceUID` of `app.go`:
`strings.ReplaceAll(endpoint, "UID", strconv.Itoa(uid))`. -/
def replaceUID (endpoint : List Char) (uid : Int) : List Char :=
  stringsReplaceAll endpoint uidToken (itoa uid)

/-! ## Regular expressions (`regexp`) -/

/-- A compiled pattern, `*regexp.Regexp`.  The package `regexp` belongs to the Go standard
library, not to the repository, and the program uses a compiled pattern only through
`FindAllString`, which in turn uses it only through the search `doExecute`: a compiled
pattern is therefore represented by that search.  `doExecute s pos` is
`re.doExecute(nil, nil, s, pos, ...)`: the bounds `[start, end)` of the match the engine
finds in the text `s` when it starts looking at `pos`, or `none`.  Anchors and word
boundaries are judged by the engine in the whole of `s`. -/
structure Regexp where
  doExecute : List Char → Nat → Option (Nat × Nat)

/-- The matching discipline documented for `regexp`: the match returned begins as early as
possible in the input, and among the matches beginning there it is the one a backtracking
search finds first.  `isMatch s i j` says that `s[i:j]`, at its place in `s`, is a match of
the pattern.  A search from `pos` returns a match that starts at the first position from
`pos` on at which any match starts, the same match that a search from that position
returns; it returns nothing only if no match starts from `pos` on. -/
structure Regexp.LeftmostFirst (re : Regexp) (isMatch : List Char → Nat → Nat → Prop) :
    Prop where
  bounds : ∀ s i j, isMatch s i j → i ≤ j ∧ j ≤ s.length
  found : ∀ s pos m0 m1, pos ≤ s.length → re.doExecute s pos = some (m0, m1) →
    pos ≤ m0 ∧ isMatch s m0 m1 ∧ re.doExecute s m0 = some (m0, m1) ∧
      ∀ i j, pos ≤ i → i < m0 → ¬ isMatch s i j
  notFound : ∀ s pos, pos ≤ s.length → re.doExecute s pos = none →
    ∀ i j, pos ≤ i → ¬ isMatch s i j

/-- The loop of `(*Regexp).allMatches` in `regexp`: successive leftmost matches, each
search starting where the previous match ended; an empty match right after the previous
match is dropped, and after an empty match the position moves on by one character.  `i`
counts the matches delivered (at most `n`), `prevMatchEnd` is `-1` before the first
match. -/
def allMatches (re : Regexp) (s : List Char) (n : Nat) :
    Nat → Nat → Nat → Int → List (Nat × Nat)
  | 0, _, _, _ => []
  | fuel + 1, pos, i, prevMatchEnd =>
    if i < n ∧ pos ≤ s.length then
      match re.doExecute s pos with
      | none => []
      | some (m0, m1) =>
        let accept : Bool := !(m1 == pos && (m0 : Int) == prevMatchEnd)
        let pos' : Nat :=
          if m1 == pos then (if pos < s.length then pos + 1 else s.length + 1) else m1
        let rest := allMatches re s n fuel pos' (if accept then i + 1 else i) (m1 : Int)
        if accept then (m0, m1) :: rest else rest
    else []

/-- The text `s[m0:m1]`. -/
def slice (s : List Char) (m0 m1 : Nat) : List Char := (s.drop m0).take (m1 - m0)

/-- The positions `FindAllString` delivers for `n = -1`: the loop of `allMatches` from the
start of the text, with `n = len(s) + 1`. -/
def matchPositions (re : Regexp) (s : List Char) : List (Nat × Nat) :=
  allMatches re s (s.length + 1) (s.length + 1) 0 0 (-1)

/-- Go `(*Regexp).FindAllString(s, n)`; a negative `n` asks for all matches. -/
def findAllString (re : Regexp) (s : List Char) (n : Int) : List (List Char) :=
  let n' : Nat := if n < 0 then s.length + 1 else n.toNat
  (allMatches re s n' (s.length + 1) 0 0 (-1)).map (fun m => slice s m.1 m.2)

/-- Function `extractLinks` of `app.go`: `regex.FindAllString(body, -1)`. -/
def extractLinks (body : List Char) (regex : Regexp) : List (List Char) :=
  findAllString regex body (-1)

/-- A pattern element that consumes exactly one character. -/
inductive CharSet where
  | literal (c : Char)
  | charClass (ranges : List (Char × Char))
  | anyCharNotNL
  | anyChar

/-- Membership of a character in a class given by inclusive ranges. -/
def inRanges (c : Char) : List (Char × Char) → Bool
  | [] => false
  | (lo, hi) :: rs => (lo.toNat ≤ c.toNat && c.toNat ≤ hi.toNat) || inRanges c rs

/-- The characters a one-character element accepts; `.` accepts all but the newline. -/
def CharSet.accepts : CharSet → Char → Bool
  | .literal c, x => x == c
  | .charClass rs, x => inRanges x rs
  | .anyCharNotNL, x => x != '\n'
  | .anyChar, _ => true

/-- Simple patterns.  The operand of a repetition is a single character element: it cannot
match the empty text, so `x*` is the plain loop of the compiler of `regexp/syntax`. -/
inductive Pattern where
  | emptyMatch
  | char (cs : CharSet)
  | concat (a b : Pattern)
  | alternate (a b : Pattern)
  | star (greedy : Bool) (cs : CharSet)

/-- One or more repetitions, `x+` (greedy) or `x+?`: `x` followed by the loop. -/
def Pattern.plus (greedy : Bool) (cs : CharSet) : Pattern :=
  .concat (.char cs) (.star greedy cs)

/-- A literal string is the concatenation of its characters. -/
def Pattern.ofLiteral : List Char → Pattern
  | [] => .emptyMatch
  | [c] => .char (.literal c)
  | c :: cs => .concat (.char (.literal c)) (Pattern.ofLiteral cs)

/-- The language of a simple pattern: `Matches p w` says that the whole of `w` is a match
of `p`. -/
inductive Matches : Pattern → List Char → Prop where
  | emptyMatch : Matches .emptyMatch []
  | char (cs : CharSet) (c : Char) : cs.accepts c = true → Matches (.char cs) [c]
  | concat (a b : Pattern) (u v : List Char) :
      Matches a u → Matches b v → Matches (.concat a b) (u ++ v)
  | alternateLeft (a b : Pattern) (u : List Char) : Matches a u → Matches (.alternate a b) u
  | alternateRight (a b : Pattern) (u : List Char) : Matches b u → Matches (.alternate a b) u
  | starNil (g : Bool) (cs : CharSet) : Matches (.star g cs) []
  | starCons (g : Bool) (cs : CharSet) (c : Char) (v : List Char) :
      cs.accepts c = true → Matches (.star g cs) v → Matches (.star g cs) (c :: v)

/-- The loop of a repetition of one character, at the text `s`: the texts it can leave, in
the order of preference.  A greedy loop prefers to consume the next character, a
non-greedy loop prefers to stop. -/
def starEnds (cs : CharSet) (greedy : Bool) : List Char → List (List Char)
  | [] => [[]]
  | c :: t =>
    if cs.accepts c then
      (if greedy then starEnds cs greedy t ++ [c :: t] else (c :: t) :: starEnds cs greedy t)
    else [c :: t]

/-- The backtracking search at the start of `s`: every text that a match of `p` can leave
unconsumed, in the order in which the search tries them (first alternative first). -/
def matchEnds : Pattern → List Char → List (List Char)
  | .emptyMatch, s => [s]
  | .char cs, s =>
    match s with
    | [] => []
    | c :: t => if cs.accepts c then [t] else []
  | .concat a b, s => (matchEnds a s).flatMap (matchEnds b)
  | .alternate a b, s => matchEnds a s ++ matchEnds b s
  | .star g cs, s => starEnds cs g s

/-- Length of the match of `p` that the search finds first at the beginning of `s`. -/
def matchPrefix (p : Pattern) (s : List Char) : Option Nat :=
  (matchEnds p s).head?.map (fun rest => s.length - rest.length)

/-- Unanchored search: the first position, counted from `i` at the head of the text, at
which a match starts, with the end of the match found first there. -/
def searchFrom (p : Pattern) : List Char → Nat → Option (Nat × Nat)
  | [], i => (matchPrefix p []).map (fun l => (i, i + l))
  | c :: t, i =>
    match matchPrefix p (c :: t) with
    | some l => some (i, i + l)
    | none => searchFrom p t (i + 1)

/-- The compiled form of a simple pattern: its search from `pos`. -/
def Pattern.compile (p : Pattern) : Regexp :=
  { doExecute := fun s pos => searchFrom p (s.drop pos) pos }

/-- The text `s[i:j]` is a match of the simple pattern `p`. -/
def Occurs (p : Pattern) (s : List Char) (i j : Nat) : Prop :=
  i ≤ j ∧ j ≤ s.length ∧ Matches p (slice s i j)

/-- The pattern `/documents/.*?\.[a-zA-Z0-9]+`, the default value of the flag `-p`. -/
def defaultPatternTree : Pattern :=
  .concat (Pattern.ofLiteral "/documents/".toList)
    (.concat (.star false .anyCharNotNL)
      (.concat (.char (.literal '.'))
        (Pattern.plus true (.charClass [('0', '9'), ('A', 'Z'), ('a', 'z')]))))

/-- The default value of the flag `-p`, compiled. -/
def defaultPattern : Regexp := defaultPatternTree.compile

/-- The pattern `a*`. -/
def aStarTree : Pattern := .star true (.literal 'a')

/-- The pattern `a*`, compiled. -/
def aStar : Regexp := aStarTree.compile

/-- The pattern `^a`, compiled: its only match is the character `a` at the start of the
text, so a search from any later position finds nothing. -/
def anchoredA : Regexp :=
  { doExecute := fun s pos => if pos = 0 ∧ s.head? = some 'a' then some (0, 1) else none }

/-- The matches of `^a` in the text `s`. -/
def anchoredAMatch (s : List Char) (i j : Nat) : Prop :=
  i = 0 ∧ j = 1 ∧ s.head? = some 'a'

/-! ## Configuration and the enumeration loop -/

/-- Type `Config` of `app.go`. -/
structure Config where
  URL : List Char
  RangeStart : Int
  RangeEnd : Int
  Endpoint : List Char
  Regex : Regexp
  Concurrency : Int

/-- The request a probe goroutine builds for identifier `uid`: a POST to `fullURL` with
body `formData`. -/
structure ProbeRequest where
  uid : Int
  fullURL : List Char
  formData : List Char
deriving DecidableEq

/-- The first statements of the probe goroutine in `main`. -/
def probeRequest (config : Config) (uid : Int) : ProbeRequest :=
  let fullEndpoint := replaceUID config.Endpoint uid
  let fullURL := config.URL ++ fullEndpoint
  let formData := "uid=".toList ++ itoa uid
  { uid := uid, fullURL := fullURL, formData := formData }

/-- One test of the loop `for uid := config.RangeStart; uid <= config.RangeEnd; uid++`:
when the condition holds a probe goroutine is started for `uid` and `uid` is incremented
in machine arithmetic; otherwise the loop is left (`none`). -/
def enumStep (config : Config) (st : Int × List ProbeRequest) :
    Option (Int × List ProbeRequest) :=
  if st.1 ≤ config.RangeEnd then
    some (wrapInt (st.1 + 1), st.2 ++ [probeRequest config st.1])
  else none

/-- The loop run for at most `fuel` tests of its condition: `some started` when it is left
within that many tests, `none` when it is still running. -/
def enumRun (config : Config) : Nat → Int × List ProbeRequest → Option (List ProbeRequest)
  | 0, _ => none
  | fuel + 1, st =>
    match enumStep config st with
    | some st' => enumRun config fuel st'
    | none => some st.2

/-- The enumeration loop of `main`, from `uid := config.RangeStart` with no probe started. -/
def enumLoop (config : Config) (fuel : Nat) : Option (List ProbeRequest) :=
  enumRun config fuel (config.RangeStart, [])

/-- The probes started by the first `k` iterations of the loop (fewer if it is left). -/
def enumPrefix (config : Config) : Nat → Int × List ProbeRequest → List ProbeRequest
  | 0, st => st.2
  | k + 1, st =>
    match enumStep config st with
    | some st' => enumPrefix config k st'
    | none => st.2

/-- The configuration `parseFlags` returns for the flags
`-u http://h -r 1-3 -e /doc.php?uid=UID`. -/
def sampleConfig : Config :=
  { URL := "http://h".toList, RangeStart := 1, RangeEnd := 3,
    Endpoint := "/doc.php?uid=UID".toList, Regex := defaultPattern, Concurrency := 5 }

/-- The configuration `parseFlags` returns for the flags
`-u http://h -r 9223372036854775806-9223372036854775807 -e /doc.php?uid=UID`. -/
def overflowConfig : Config :=
  { URL := "http://h".toList, RangeStart := 9223372036854775806,
    RangeEnd := 9223372036854775807, Endpoint := "/doc.php?uid=UID".toList,
    Regex := defaultPattern, Concurrency := 5 }

/-! ## Flag parsing -/

/-- Go `strings.Split(s, sep)` for a separator of one character: the texts between the
occurrences of `sep`, at least one. -/
def stringsSplit (s : List Char) (sep : Char) : List (List Char) :=
  match s with
  | [] => [[]]
  | c :: t =>
    if c = sep then [] :: stringsSplit t sep
    else
      match stringsSplit t sep with
      | [] => [[c]]
      | p :: ps => (c :: p) :: ps

/-- Go `strings.HasPrefix`. -/
def hasPrefix (s pre : List Char) : Bool := pre.isPrefixOf s

/-- Go `strings.TrimRight(s, cutset)`: `s` without its trailing characters that are in
`cutset`. -/
def trimRight (s cutset : List Char) : List Char :=
  (s.reverse.dropWhile (fun c => cutset.contains c)).reverse

/-- Value of a decimal digit. -/
def digitValue (c : Char) : Option Nat :=
  if '0'.toNat ≤ c.toNat ∧ c.toNat ≤ '9'.toNat then some (c.toNat - '0'.toNat) else none

/-- The digit loop of `strconv.ParseUint` in base 10 (without the overflow cut-off, which
`atoi` applies to the value). -/
def parseDigits : Nat → List Char → Option Nat
  | acc, [] => some acc
  | acc, c :: t =>
    match digitValue c with
    | some d => parseDigits (acc * 10 + d) t
    | none => none

/-- Go `strconv.Atoi`: an optional sign and at least one decimal digit, of a value in the
range of `int`; `none` stands for the syntax and range errors. -/
def atoi (s : List Char) : Option Int :=
  match s with
  | [] => none
  | c :: t =>
    let neg := c == '-'
    let digits := if c == '-' || c == '+' then t else c :: t
    if digits.isEmpty then none
    else
      match parseDigits 0 digits with
      | none => none
      | some un =>
        if neg then (if un > 2 ^ (intSize - 1) then none else some (-(un : Int)))
        else (if un ≥ 2 ^ (intSize - 1) then none else some (un : Int))

/-- The values of the command-line flags after `flag.Parse()`. -/
structure Flags where
  u : List Char := []
  r : List Char := []
  e : List Char := []
  p : List Char := "/documents/.*?\\.[a-zA-Z0-9]+".toList
  c : Int := 5
  h : Bool := false
  help : Bool := false

/-- How `parseFlags` ends: the process exits (help), an error is returned, or a
configuration is returned. -/
inductive ParseResult where
  | exit (code : Int)
  | error (msg : String)
  | ok (config : Config)

/-- Function `parseFlags` of `app.go`, after `flag.Parse()`.  `compile` is
`regexp.Compile`. -/
def parseFlags (compile : List Char → Except String Regexp) (f : Flags) : ParseResult :=
  if f.h || f.help then .exit 0
  else if f.u == [] || f.r == [] || f.e == [] then
    .error "error: the parameters -u, -r, and -e are mandatory"
  else if !(hasPrefix f.u "http://".toList || hasPrefix f.u "https://".toList) then
    .error "error: invalid URL. It must start with http:// or https://"
  else
    let rangeParts := stringsSplit f.r '-'
    if rangeParts.length != 2 then
      .error "error: invalid RANGE. It must be in the format START-END"
    else
      match atoi (rangeParts.getD 0 []) with
      | none => .error "error: START of RANGE must be a positive number"
      | some start =>
        if start ≤ 0 then .error "error: START of RANGE must be a positive number"
        else
          match atoi (rangeParts.getD 1 []) with
          | none => .error "error: END of RANGE must be a positive number"
          | some endVal =>
            if endVal ≤ 0 then .error "error: END of RANGE must be a positive number"
            else if start ≥ endVal then .error "error: START of RANGE must be less than END"
            else
              match compile f.p with
              | .error err => .error ("error: invalid regular expression: " ++ err)
              | .ok regex =>
                if f.c ≤ 0 then .error "error: CONCURRENCY must be a positive number"
                else
                  .ok { URL := trimRight f.u "/".toList, RangeStart := start, RangeEnd := endVal,
                        Endpoint := f.e, Regex := regex, Concurrency := f.c }

/-! ## Probe workers and the link set -/

/-- What the network answers to the request of one probe goroutine: `http.NewRequest`
fails, `client.Do` fails, or a response arrives with a status code and a body, `body`
being what `io.ReadAll(resp.Body)` returns. -/
inductive ProbeOutcome where
  | requestError (err : List Char)
  | transportError (err : List Char)
  | response (statusCode : Int) (body : Except (List Char) (List Char))

/-- The assignment `linksMap[link] = struct{}{}` on a `map[string]struct{}`, the map
being the list of its keys: a key already present is not added again. -/
def mapInsert (linksMap : List (List Char)) (link : List Char) : List (List Char) :=
  if link ∈ linksMap then linksMap else linksMap ++ [link]

/-- The state the probe goroutines share: the link set (under `mapMutex`) and the lines
printed (under `mutex`). -/
structure Shared where
  linksMap : List (List Char)
  output : List (List Char)

/-- The body of the probe goroutine of `main` for identifier `uid`, after the request has
been built: its effect on the shared state for a given answer of the network. -/
def probeWorker (config : Config) (uid : Int) (outcome : ProbeOutcome) (st : Shared) :
    Shared :=
  match outcome with
  | .requestError err =>
    { st with output := st.output ++
        ["UID ".toList ++ itoa uid ++ ": Error creating request: ".toList ++ err ++ ['\n']] }
  | .transportError err =>
    { st with output := st.output ++
        ["UID ".toList ++ itoa uid ++ ": Error accessing URL: ".toList ++ err ++ ['\n']] }
  | .response statusCode body =>
    if statusCode ≠ 200 then
      { st with output := st.output ++
          ["UID ".toList ++ itoa uid ++ ": HTTP ".toList ++ itoa statusCode ++ ['\n']] }
    else
      match body with
      | .error err =>
        { st with output := st.output ++
            ["UID ".toList ++ itoa uid ++ ": Error reading response: ".toList ++ err ++ ['\n']] }
      | .ok body =>
        let links := extractLinks body config.Regex
        if links.length = 0 then st
        else { st with linksMap := links.foldl mapInsert st.linksMap }

/-- The enumeration stage up to `enumWG.Wait()`: every goroutine runs at most one
critical section, so a run is the list of probes in the order of their critical sections. -/
def runProbes (config : Config) (order : List (Int × ProbeOutcome)) (st : Shared) : Shared :=
  order.foldl (fun acc p => probeWorker config p.1 p.2 acc) st

/-- The shared state when `main` starts the enumeration. -/
def initShared : Shared := { linksMap := [], output := [] }

/-! ## The download stage -/

/-- Where the orchestrating goroutine stands in the download loop of `main`. -/
inductive OrchPc where
  | range
  | send (link : List Char)
  | spawn (link : List Char)
  | wait
  | completed
deriving DecidableEq

/-- State of the download stage.  `semaphore` is the number of tokens in the buffered
channel, `wg` the counter of the `WaitGroup`; `downloading`, `finished` and `released`
count the worker goroutines inside `downloadFile`, between the return of `downloadFile`
and `<-semaphore`, and between `<-semaphore` and the deferred `wg.Done()`.  `started`
lists the URLs handed to `downloadFile`; `acquired` and `releasedTotal` count the sends
to and the receives from the semaphore. -/
structure DownloadStage where
  downloadChan : List (List Char)
  pc : OrchPc
  semaphore : Nat
  wg : Nat
  downloading : Nat
  finished : Nat
  released : Nat
  started : List (List Char)
  acquired : Nat
  releasedTotal : Nat
deriving DecidableEq

/-- The atomic steps of the download stage. -/
inductive StageAction where
  | next
  | acquire
  | spawn
  | finish
  | release
  | done
  | join
deriving DecidableEq

/-- The stage when the loop `for link := range downloadChan` is entered: the channel holds
`uniqueLinks` and is closed. -/
def initStage (uniqueLinks : List (List Char)) : DownloadStage :=
  { downloadChan := uniqueLinks, pc := .range, semaphore := 0, wg := 0, downloading := 0,
    finished := 0, released := 0, started := [], acquired := 0, releasedTotal := 0 }

/-- One step of the download stage, `none` when the step is not enabled.
* `next`: the loop receives the next link and calls `wg.Add(1)`, or finds the channel
  drained and goes on to `wg.Wait()`;
* `acquire`: `semaphore <- struct{}{}`, possible only while the channel holds fewer than
  `config.Concurrency` tokens;
* `spawn`: the `go` statement, the worker calls `downloadFile(config.URL + link, ...)`;
* `finish`: `downloadFile` returns in some worker;
* `release`: `<-semaphore` in a worker whose `downloadFile` has returned;
* `done`: the deferred `wg.Done()`;
* `join`: `wg.Wait()` returns, the counter being zero. -/
def stageStep (config : Config) (s : DownloadStage) : StageAction → Option DownloadStage
  | .next =>
    match s.pc, s.downloadChan with
    | .range, link :: rest => some { s with downloadChan := rest, pc := .send link, wg := s.wg + 1 }
    | .range, [] => some { s with pc := .wait }
    | _, _ => none
  | .acquire =>
    match s.pc with
    | .send link =>
      if (s.semaphore : Int) < config.Concurrency then
        some { s with semaphore := s.semaphore + 1, acquired := s.acquired + 1, pc := .spawn link }
      else none
    | _ => none
  | .spawn =>
    match s.pc with
    | .spawn link =>
      some { s with downloading := s.downloading + 1,
                    started := s.started ++ [config.URL ++ link], pc := .range }
    | _ => none
  | .finish =>
    if 0 < s.downloading then
      some { s with downloading := s.downloading - 1, finished := s.finished + 1 }
    else none
  | .release =>
    if 0 < s.finished ∧ 0 < s.semaphore then
      some { s with finished := s.finished - 1, released := s.released + 1,
                    semaphore := s.semaphore - 1, releasedTotal := s.releasedTotal + 1 }
    else none
  | .done =>
    if 0 < s.released then some { s with released := s.released - 1, wg := s.wg - 1 }
    else none
  | .join =>
    match s.pc with
    | .wait => if s.wg = 0 then some { s with pc := .completed } else none
    | _ => none

/-- A schedule: the steps taken one after the other, `none` if one of them is not enabled. -/
def runStage (config : Config) : DownloadStage → List StageAction → Option DownloadStage
  | s, [] => some s
  | s, a :: as =>
    match stageStep config s a with
    | some s' => runStage config s' as
    | none => none

/-- Download workers that have been started and have not yet released their slot. -/
def DownloadStage.inFlight (s : DownloadStage) : Nat := s.downloading + s.finished

/-- The link the orchestrator has received from the channel and not yet handed to a
worker. -/
def OrchPc.pending : OrchPc → List (List Char)
  | .send link => [link]
  | .spawn link => [link]
  | _ => []

/-- The semaphore slot the orchestrator holds between its send and the `go` statement. -/
def OrchPc.holds : OrchPc → Nat
  | .spawn _ => 1
  | _ => 0

/-- The unit `wg.Add(1)` has added for a worker that is not started yet. -/
def OrchPc.added : OrchPc → Nat
  | .send _ => 1
  | .spawn _ => 1
  | _ => 0

/-- The invariant of the download stage for the links `uniqueLinks`. -/
structure StageInv (config : Config) (uniqueLinks : List (List Char)) (s : DownloadStage) :
    Prop where
  slots : s.semaphore = s.downloading + s.finished + s.pc.holds
  bound : (s.semaphore : Int) ≤ config.Concurrency
  group : s.wg = s.downloading + s.finished + s.released + s.pc.added
  balance : s.acquired = s.releasedTotal + s.semaphore
  links : s.started ++ (s.pc.pending ++ s.downloadChan).map (fun link => config.URL ++ link) =
    uniqueLinks.map (fun link => config.URL ++ link)
  count : s.acquired + s.pc.added - s.pc.holds + s.downloadChan.length = uniqueLinks.length
  drained : s.pc = .wait ∨ s.pc = .completed → s.downloadChan = []
  joined : s.pc = .completed → s.wg = 0

/-- The schedule that runs the workers one after the other. -/
def sequentialSchedule (uniqueLinks : List (List Char)) : List StageAction :=
  uniqueLinks.flatMap (fun _ => [.next, .acquire, .spawn, .finish, .release, .done]) ++
    [.next, .join]

/-! ## `downloadFile` -/

/-- The scan of `filepath.Clean` over the elements of a path, `out` holding the elements
kept so far, last first: empty elements and `.` are dropped, `..` removes the element
before it, except at the start of a relative path, where it is kept, and at the root,
where it is dropped. -/
def cleanElems (rooted : Bool) : List (List Char) → List (List Char) → List (List Char)
  | out, [] => out
  | out, e :: es =>
    if e = [] ∨ e = ['.'] then cleanElems rooted out es
    else if e = ['.', '.'] then
      match out with
      | o :: os =>
        if o = ['.', '.'] then cleanElems rooted (e :: out) es else cleanElems rooted os es
      | [] => if rooted then cleanElems rooted [] es else cleanElems rooted [e] es
    else cleanElems rooted (e :: out) es

/-- Go `filepath.Clean` with the separator `/`. -/
def filepathClean (path : List Char) : List Char :=
  if path = [] then ['.']
  else
    let rooted : Bool := path.head? == some '/'
    let elems := (cleanElems rooted [] (stringsSplit path '/')).reverse
    let out := List.intercalate ['/'] elems
    if rooted then '/' :: out else if out = [] then ['.'] else out

/-- Go `filepath.Join` with the separator `/`: the empty leading elements are skipped,
the rest is joined by `/` and cleaned. -/
def filepathJoin (elem : List (List Char)) : List Char :=
  match elem.dropWhile (fun e => e.isEmpty) with
  | [] => []
  | es => filepathClean (List.intercalate ['/'] es)

/-- What `client.Get(url)` returns. -/
inductive GetResult where
  | transportError (err : List Char)
  | response (statusCode : Int) (body : List Char)

/-- What the file system answers to `os.Create` and `io.Copy`: creation fails, the copy
fails after `written` characters, or both succeed. -/
inductive WriteResult where
  | createError (err : List Char)
  | copyError (written : Nat) (err : List Char)
  | ok

/-- The files of the download directory: path and contents. -/
abbrev FileSystem := List (List Char × List Char)

/-- The effect of `os.Create(path)` followed by writing `content`: the file is created, or
truncated if it exists, and holds `content`. -/
def fsWrite (fs : FileSystem) (path content : List Char) : FileSystem :=
  (path, content) :: fs.filter (fun entry => entry.1 != path)

/-- Function `downloadFile` of `app.go`: the file system after the call and the line
printed. -/
def downloadFile (url downloadDir : List Char) (get : GetResult) (write : WriteResult)
    (fs : FileSystem) : FileSystem × List Char :=
  match get with
  | .transportError err =>
    (fs, "Failed to download: ".toList ++ url ++ " | Error: ".toList ++ err ++ ['\n'])
  | .response statusCode body =>
    if statusCode ≠ 200 then
      (fs, "Failed to download: ".toList ++ url ++ " | HTTP Status: ".toList ++
        itoa statusCode ++ ['\n'])
    else
      let parts := stringsSplit url '/'
      let filename := parts.getLastD []
      let filepath := filepathJoin [downloadDir, filename]
      match write with
      | .createError err =>
        (fs, "Failed to create file: ".toList ++ filepath ++ " | Error: ".toList ++ err ++ ['\n'])
      | .copyError written err =>
        (fsWrite fs filepath (body.take written),
          "Failed to save file: ".toList ++ filepath ++ " | Error: ".toList ++ err ++ ['\n'])
      | .ok => (fsWrite fs filepath body, "Downloaded: ".toList ++ url ++ ['\n'])

/-- The download directory of `main`. -/
def downloadDir : List Char := "downloads".toList

/-- Three probes: two answered with status 200, sharing a link, and one with status 500. -/
def sampleProbes : List (Int × ProbeOutcome) :=
  [(1, .response 200 (.ok "x /documents/a.pdf y /documents/b.txt /documents/a.pdf".toList)),
   (2, .response 500 (.ok "/documents/z.zip".toList)),
   (3, .response 200 (.ok "/documents/b.txt".toList))]

/-- The sample probes in another order of execution. -/
def sampleOrder : List (Int × ProbeOutcome) :=
  [(2, .response 500 (.ok "/documents/z.zip".toList)),
   (1, .response 200 (.ok "x /documents/a.pdf y /documents/b.txt /documents/a.pdf".toList)),
   (3, .response 200 (.ok "/documents/b.txt".toList))]

/-- The links of the sample run in an order in which the map may be iterated. -/
def sampleUniqueLinks : List (List Char) :=
  ["/documents/b.txt".toList, "/documents/a.pdf".toList]

/-- A schedule of the download stage for two links with both workers running at once. -/
def sampleSchedule : List StageAction :=
  [.next, .acquire, .spawn, .next, .acquire, .spawn, .finish, .finish, .release, .release,
    .done, .done, .next, .join]

/-- The state the sample schedule ends in. -/
def sampleFinal : DownloadStage :=
  { downloadChan := [], pc := .completed, semaphore := 0, wg := 0, downloading := 0,
    finished := 0, released := 0,
    started := ["http://h/documents/b.txt".toList, "http://h/documents/a.pdf".toList],
    acquired := 2, releasedTotal := 2 }

/-! # Theorems -/

/-! ## Facts about `itoa` -/

theorem digitChar_mem_decimalChars : ∀ d, d < 10 → Nat.digitChar d ∈ decimalChars := by
  decide

theorem toDigitsCore_mem (fuel : Nat) : ∀ (n : Nat) (ds : List Char),
    (∀ c ∈ ds, c ∈ decimalChars) → ∀ c ∈ Nat.toDigitsCore 10 fuel n ds, c ∈ decimalChars := by
  induction fuel with
  | zero => intro n ds h c hc; simpa [Nat.toDigitsCore] using h c hc
  | succ f ih =>
    intro n ds h c hc
    have hd : Nat.digitChar (n % 10) ∈ decimalChars :=
      digitChar_mem_decimalChars _ (Nat.mod_lt _ (by decide))
    have hds : ∀ x ∈ Nat.digitChar (n % 10) :: ds, x ∈ decimalChars := by
      intro x hx
      rcases List.mem_cons.1 hx with rfl | hx
      · exact hd
      · exact h x hx
    rw [Nat.toDigitsCore] at hc
    by_cases h0 : n / 10 = 0
    · simp only [h0, if_true] at hc
      exact hds c hc
    · simp only [h0, if_false] at hc
      exact ih _ _ hds c hc

theorem toDigitsCore_ne_nil (fuel : Nat) : ∀ (n : Nat) (ds : List Char),
    ds ≠ [] → Nat.toDigitsCore 10 fuel n ds ≠ [] := by
  induction fuel with
  | zero => intro n ds h; simpa [Nat.toDigitsCore] using h
  | succ f ih =>
    intro n ds _
    rw [Nat.toDigitsCore]
    by_cases h0 : n / 10 = 0
    · simp [h0]
    · simp only [h0, if_false]
      exact ih _ _ (by simp)

theorem toDigits_ne_nil (n : Nat) : Nat.toDigits 10 n ≠ [] := by
  unfold Nat.toDigits
  rw [Nat.toDigitsCore]
  by_cases h0 : n / 10 = 0
  · simp [h0]
  · simp only [h0, if_false]
    exact toDigitsCore_ne_nil _ _ _ (by simp)

theorem itoa_mem_decimalChars (i : Int) : ∀ c ∈ itoa i, c ∈ decimalChars := by
  intro c hc
  unfold itoa at hc
  split at hc
  · rcases List.mem_cons.1 hc with rfl | hc
    · decide
    · exact toDigitsCore_mem _ _ _ (by simp) c hc
  · exact toDigitsCore_mem _ _ _ (by simp) c hc

theorem itoa_ne_nil (i : Int) : itoa i ≠ [] := by
  unfold itoa
  split
  · simp
  · exact toDigits_ne_nil _

theorem itoa_not_token_char (i : Int) : ∀ c ∈ itoa i, c ≠ 'U' ∧ c ≠ 'I' ∧ c ≠ 'D' := by
  intro c hc
  have h := itoa_mem_decimalChars i c hc
  revert h
  generalize c = x
  intro h
  simp only [decimalChars, List.mem_cons, List.mem_singleton, List.not_mem_nil, or_false] at h
  rcases h with h | h | h | h | h | h | h | h | h | h | h <;> subst h <;> decide


/-! ## `replaceUID` -/

theorem replaceScan_skip (old new : List Char) : ∀ (pre rest : List Char),
    replaceScan old new pre.length (pre ++ rest) = replaceScan old new 0 rest := by
  intro pre
  induction pre with
  | nil => intro rest; rfl
  | cons a p ih =>
    intro rest
    simp only [List.length_cons, List.cons_append, replaceScan]
    exact ih rest

theorem replaceScan_nil (old new : List Char) : replaceScan old new 0 [] = [] := rfl

theorem replaceScan_hit (new rest : List Char) :
    replaceScan uidToken new 0 (uidToken ++ rest) = new ++ replaceScan uidToken new 0 rest := by
  simp [uidToken, replaceScan, List.isPrefixOf]

theorem replaceScan_miss (new : List Char) (c : Char) (t : List Char)
    (h : ¬ uidToken <+: c :: t) :
    replaceScan uidToken new 0 (c :: t) = c :: replaceScan uidToken new 0 t := by
  have h2 : uidToken.isPrefixOf (c :: t) = false := by
    rw [Bool.eq_false_iff]
    intro hp
    exact h (List.isPrefixOf_iff_prefix.1 hp)
  rw [replaceScan, h2]
  simp

theorem token_prefix_cons (c : Char) (t : List Char) :
    uidToken <+: c :: t ↔ c = 'U' ∧ ∃ r, t = 'I' :: 'D' :: r := by
  constructor
  · rintro ⟨r, hr⟩
    simp only [uidToken, List.cons_append, List.nil_append, List.cons.injEq] at hr
    exact ⟨hr.1.symm, r, hr.2.symm⟩
  · rintro ⟨rfl, r, rfl⟩
    exact ⟨r, rfl⟩

theorem not_token_infix_append (new y : List Char) (hnew : ∀ c ∈ new, c ≠ 'U')
    (hy : ¬ uidToken <:+: y) : ¬ uidToken <:+: new ++ y := by
  induction new with
  | nil => simpa using hy
  | cons a n ih =>
    rw [List.cons_append, List.infix_cons_iff]
    rintro (hp | hi)
    · exact hnew a (List.mem_cons_self _ _) ((token_prefix_cons _ _).1 hp).1
    · exact ih (fun c hc => hnew c (List.mem_cons_of_mem _ hc)) hi

theorem replaceScan_head (new : List Char) (hne : new ≠ []) (c : Char) (hc : c ∉ new) :
    ∀ (t y : List Char), replaceScan uidToken new 0 t = c :: y →
      ∃ r, t = c :: r ∧ replaceScan uidToken new 0 r = y := by
  intro t y h
  cases t with
  | nil => simp [replaceScan] at h
  | cons a r =>
    by_cases hp : uidToken <+: a :: r
    · obtain ⟨rest, hrest⟩ := hp
      rw [← hrest, replaceScan_hit] at h
      cases new with
      | nil => exact absurd rfl hne
      | cons n ns =>
        simp only [List.cons_append, List.cons.injEq] at h
        exact absurd (h.1 ▸ List.mem_cons_self _ _) hc
    · rw [replaceScan_miss new a r hp] at h
      simp only [List.cons.injEq] at h
      exact ⟨r, by rw [h.1], h.2⟩

theorem intercalate_cons_cons (sep x y : List Char) (more : List (List Char)) :
    List.intercalate sep (x :: y :: more) = x ++ sep ++ List.intercalate sep (y :: more) := by
  simp [List.intercalate, List.intersperse]

theorem intercalate_head_cons (sep : List Char) (c : Char) (x : List Char)
    (more : List (List Char)) :
    List.intercalate sep ((c :: x) :: more) = c :: List.intercalate sep (x :: more) := by
  cases more with
  | nil => simp [List.intercalate, List.intersperse]
  | cons y ys => simp [intercalate_cons_cons]

theorem head_prefix_intercalate (sep x : List Char) (more : List (List Char)) :
    x <+: List.intercalate sep (x :: more) := by
  cases more with
  | nil => simp [List.intercalate, List.intersperse]
  | cons y ys =>
    rw [intercalate_cons_cons, List.append_assoc]
    exact List.prefix_append _ _

/-- The scan cuts its input at the occurrences of the token: the input is the pieces joined
by the token, the output is the same pieces joined by the replacement, and no piece
contains the token. -/
theorem replaceScan_segments (new : List Char) : ∀ (n : Nat) (s : List Char), s.length ≤ n →
    ∃ segs : List (List Char), segs ≠ [] ∧
      s = List.intercalate uidToken segs ∧
      replaceScan uidToken new 0 s = List.intercalate new segs ∧
      ∀ seg ∈ segs, ¬ uidToken <:+: seg := by
  intro n
  induction n with
  | zero =>
    intro s hs
    have : s = [] := List.eq_nil_of_length_eq_zero (Nat.le_zero.1 hs)
    subst this
    exact ⟨[[]], by simp, by simp [List.intercalate, List.intersperse],
      by simp [List.intercalate, List.intersperse, replaceScan], by simp [uidToken]⟩
  | succ n ih =>
    intro s hs
    cases s with
    | nil =>
      exact ⟨[[]], by simp, by simp [List.intercalate, List.intersperse],
        by simp [List.intercalate, List.intersperse, replaceScan], by simp [uidToken]⟩
    | cons c t =>
      by_cases hp : uidToken <+: c :: t
      · obtain ⟨rest, hrest⟩ := hp
        have hlen : rest.length ≤ n := by
          have := congrArg List.length hrest
          simp [uidToken] at this hs
          omega
        obtain ⟨segs, hne, h1, h2, h3⟩ := ih rest hlen
        cases segs with
        | nil => exact absurd rfl hne
        | cons y more =>
          refine ⟨[] :: y :: more, by simp, ?_, ?_, ?_⟩
          · rw [intercalate_cons_cons, ← h1, ← hrest]; simp
          · rw [intercalate_cons_cons, ← h2, ← hrest, replaceScan_hit]; simp
          · intro seg hseg
            rcases List.mem_cons.1 hseg with rfl | hseg
            · simp [uidToken]
            · exact h3 seg hseg
      · have hlen : t.length ≤ n := by simpa using hs
        obtain ⟨segs, hne, h1, h2, h3⟩ := ih t hlen
        cases segs with
        | nil => exact absurd rfl hne
        | cons y more =>
          refine ⟨(c :: y) :: more, by simp, ?_, ?_, ?_⟩
          · rw [intercalate_head_cons, ← h1]
          · rw [intercalate_head_cons, ← h2, replaceScan_miss new c t hp]
          · intro seg hseg
            rcases List.mem_cons.1 hseg with rfl | hseg
            · rw [List.infix_cons_iff]
              rintro (hpre | hin)
              · apply hp
                have hy : c :: y <+: c :: t := by
                  rw [List.prefix_cons_inj, h1]
                  exact head_prefix_intercalate _ _ _
                exact hpre.trans hy
              · exact h3 y (List.mem_cons_self _ _) hin
            · exact h3 seg (List.mem_cons_of_mem _ hseg)

theorem replaceScan_no_token (new : List Char) (hne : new ≠ [])
    (hnew : ∀ c ∈ new, c ≠ 'U' ∧ c ≠ 'I' ∧ c ≠ 'D') : ∀ (n : Nat) (s : List Char),
    s.length ≤ n → ¬ uidToken <:+: replaceScan uidToken new 0 s := by
  intro n
  induction n with
  | zero =>
    intro s hs
    have : s = [] := List.eq_nil_of_length_eq_zero (Nat.le_zero.1 hs)
    subst this
    simp [replaceScan, uidToken]
  | succ n ih =>
    intro s hs
    cases s with
    | nil => simp [replaceScan, uidToken]
    | cons c t =>
      by_cases hp : uidToken <+: c :: t
      · obtain ⟨rest, hrest⟩ := hp
        have hlen : rest.length ≤ n := by
          have := congrArg List.length hrest
          simp [uidToken] at this hs
          omega
        rw [← hrest, replaceScan_hit]
        exact not_token_infix_append new _ (fun x hx => (hnew x hx).1) (ih rest hlen)
      · have hlen : t.length ≤ n := by simpa using hs
        rw [replaceScan_miss new c t hp, List.infix_cons_iff]
        rintro (hpre | hin)
        · obtain ⟨hc, r, hr⟩ := (token_prefix_cons _ _).1 hpre
          have hI : 'I' ∉ new := fun h => (hnew _ h).2.1 rfl
          have hD : 'D' ∉ new := fun h => (hnew _ h).2.2 rfl
          obtain ⟨t1, ht1, hr1⟩ := replaceScan_head new hne 'I' hI t _ hr
          obtain ⟨t2, ht2, _⟩ := replaceScan_head new hne 'D' hD t1 _ hr1
          exact hp ((token_prefix_cons _ _).2 ⟨hc, t2, by rw [ht1, ht2]⟩)
        · exact ih t hlen hin

theorem replaceScan_unchanged (new : List Char) : ∀ (s : List Char),
    ¬ uidToken <:+: s → replaceScan uidToken new 0 s = s := by
  intro s
  induction s with
  | nil => intro _; rfl
  | cons c t ih =>
    intro h
    rw [List.infix_cons_iff, not_or] at h
    rw [replaceScan_miss new c t h.1, ih h.2]

theorem replaceUID_eq_scan (endpoint : List Char) (uid : Int) :
    replaceUID endpoint uid = replaceScan uidToken (itoa uid) 0 endpoint := by
  have h1 : uidToken ≠ itoa uid := by
    intro h
    have := itoa_not_token_char uid 'U' (by rw [← h]; simp [uidToken])
    exact this.1 rfl
  have h2 : uidToken ≠ [] := by simp [uidToken]
  simp [replaceUID, stringsReplaceAll, h1, h2]

/-- C6: `replaceUID` cuts the endpoint template at every occurrence of the token `UID`,
puts the decimal representation of `uid` in place of each occurrence and keeps the text in
between; the result holds no occurrence of `UID`, and a template without the token is
returned unchanged. -/
theorem replaceUID_replaces_every_token (endpoint : List Char) (uid : Int) :
    (∃ segs : List (List Char), segs ≠ [] ∧
      endpoint = List.intercalate uidToken segs ∧
      replaceUID endpoint uid = List.intercalate (itoa uid) segs ∧
      ∀ seg ∈ segs, ¬ uidToken <:+: seg) ∧
    ¬ uidToken <:+: replaceUID endpoint uid ∧
    (¬ uidToken <:+: endpoint → replaceUID endpoint uid = endpoint) := by
  rw [replaceUID_eq_scan]
  exact ⟨replaceScan_segments _ _ _ (Nat.le_refl _),
    replaceScan_no_token _ (itoa_ne_nil uid) (itoa_not_token_char uid) _ _ (Nat.le_refl _),
    replaceScan_unchanged _ _⟩

/-! ## The enumeration loop -/

theorem wrapInt_range (x : Int) : minInt ≤ wrapInt x ∧ wrapInt x ≤ maxInt := by
  simp only [wrapInt, minInt, maxInt, intSize]
  norm_num
  omega

theorem wrapInt_eq_self (x : Int) (h1 : minInt ≤ x) (h2 : x ≤ maxInt) : wrapInt x = x := by
  simp only [wrapInt, minInt, maxInt, intSize] at *
  norm_num at *
  omega

/-- When `RangeEnd` is the largest `int`, the loop condition holds for every value `uid`
can take, so no number of tests leaves the loop. -/
theorem enumRun_never_leaves (config : Config) (hend : config.RangeEnd = maxInt) :
    ∀ (fuel : Nat) (uid : Int) (started : List ProbeRequest), uid ≤ maxInt →
      enumRun config fuel (uid, started) = none := by
  intro fuel
  induction fuel with
  | zero => intro uid started _; rfl
  | succ f ih =>
    intro uid started h
    have hc : uid ≤ config.RangeEnd := by rw [hend]; exact h
    simp only [enumRun, enumStep, hc, if_true]
    exact ih _ _ (wrapInt_range _).2

/-- Below the largest `int` the loop is left after one test per identifier from `uid` to
`RangeEnd` and one more, having started one probe for each of them in increasing order. -/
theorem enumRun_terminates (config : Config) (hend : config.RangeEnd < maxInt) :
    ∀ (k : Nat) (uid : Int) (started : List ProbeRequest) (fuel : Nat),
      minInt ≤ uid → uid + k = config.RangeEnd + 1 → k < fuel →
      enumRun config fuel (uid, started) =
        some (started ++ (List.range k).map (fun j : Nat => probeRequest config (uid + (j : Int)))) := by
  intro k
  induction k with
  | zero =>
    intro uid started fuel _ hk hf
    obtain ⟨f, rfl⟩ : ∃ f, fuel = f + 1 := ⟨fuel - 1, by omega⟩
    have hc : ¬ uid ≤ config.RangeEnd := by simp at hk; omega
    simp [enumRun, enumStep, hc]
  | succ k ih =>
    intro uid started fuel hmin hk hf
    obtain ⟨f, rfl⟩ : ∃ f, fuel = f + 1 := ⟨fuel - 1, by omega⟩
    have hc : uid ≤ config.RangeEnd := by push_cast at hk; omega
    have hw : wrapInt (uid + 1) = uid + 1 :=
      wrapInt_eq_self _ (by omega) (by omega)
    simp only [enumRun, enumStep, hc, if_true, hw]
    rw [ih (uid + 1) _ f (by omega) (by push_cast at hk ⊢; omega) (by omega)]
    simp only [List.range_succ_eq_map, List.map_cons, List.map_map, List.append_assoc,
      List.singleton_append, Nat.cast_zero, add_zero]
    congr 3
    apply List.map_congr_left
    intro j _
    simp only [Function.comp, Nat.succ_eq_add_one, Nat.cast_add, Nat.cast_one]
    congr 1
    ring

/-- For every configuration with `0 < RangeStart < RangeEnd` and `RangeEnd` below the
largest `int`, the enumeration loop terminates having started exactly
`RangeEnd - RangeStart + 1` probes, one for each identifier of the range in increasing
order, each with the URL and the body built from its identifier. -/
theorem enumLoop_below_maxInt (config : Config) (hstart : 0 < config.RangeStart)
    (hlt : config.RangeStart < config.RangeEnd) (hend : config.RangeEnd < maxInt)
    (fuel : Nat) (hfuel : (config.RangeEnd - config.RangeStart + 1).toNat < fuel) :
    ∃ started : List ProbeRequest,
      enumLoop config fuel = some started ∧
      (started.length : Int) = config.RangeEnd - config.RangeStart + 1 ∧
      started.map (fun p => p.uid) =
        (List.range (config.RangeEnd - config.RangeStart + 1).toNat).map
          (fun j : Nat => config.RangeStart + (j : Int)) ∧
      (started.map (fun p => p.uid)).Nodup ∧
      (∀ i : Int, config.RangeStart ≤ i → i ≤ config.RangeEnd →
        (started.map (fun p => p.uid)).count i = 1) ∧
      ∀ p ∈ started, config.RangeStart ≤ p.uid ∧ p.uid ≤ config.RangeEnd ∧
        p.fullURL = config.URL ++ replaceUID config.Endpoint p.uid ∧
        p.formData = "uid=".toList ++ itoa p.uid := by
  have hK : ((config.RangeEnd - config.RangeStart + 1).toNat : Int) =
      config.RangeEnd - config.RangeStart + 1 := Int.toNat_of_nonneg (by omega)
  have hmin : minInt ≤ config.RangeStart := by
    have : minInt ≤ 0 := by decide
    omega
  have hrun := enumRun_terminates config hend (config.RangeEnd - config.RangeStart + 1).toNat
    config.RangeStart [] fuel hmin (by rw [hK]; ring) hfuel
  have hnodup : ((List.range (config.RangeEnd - config.RangeStart + 1).toNat).map
      (fun j : Nat => config.RangeStart + (j : Int))).Nodup := by
    apply List.Nodup.map _ (List.nodup_range _)
    intro a b hab
    simpa using hab
  refine ⟨_, hrun, ?_, ?_, ?_, ?_, ?_⟩
  · simp only [List.nil_append, List.length_map, List.length_range]
    exact hK
  · simp [List.map_map, Function.comp, probeRequest]
  · simpa [List.map_map, Function.comp, probeRequest] using hnodup
  · intro i h1 h2
    have hmem : i ∈ (List.range (config.RangeEnd - config.RangeStart + 1).toNat).map
        (fun j : Nat => config.RangeStart + (j : Int)) := by
      rw [List.mem_map]
      refine ⟨(i - config.RangeStart).toNat, ?_, ?_⟩
      · rw [List.mem_range]; omega
      · rw [Int.toNat_of_nonneg (by omega)]; ring
    have hc := List.count_eq_one_of_mem hnodup hmem
    simpa [List.map_map, Function.comp, probeRequest] using hc
  · intro p hp
    simp only [List.nil_append, List.mem_map, List.mem_range] at hp
    obtain ⟨j, hj, rfl⟩ := hp
    refine ⟨?_, ?_, rfl, rfl⟩
    · simp [probeRequest]
    · simp only [probeRequest]; omega

/-- C1 (defect at the top of the `int` range): the flags
`-r 9223372036854775806-9223372036854775807` pass validation, yet the loop
`for uid := RangeStart; uid <= RangeEnd; uid++` is never left, because `uid++` wraps from
the largest `int` to the smallest and `uid <= RangeEnd` holds for every `int`; the third
probe started is for the identifier `-9223372036854775808`, outside the range. -/
theorem enumLoop_overflow_never_terminates :
    parseFlags (fun _ => .ok defaultPattern)
        { u := "http://h".toList, r := "9223372036854775806-9223372036854775807".toList,
          e := "/doc.php?uid=UID".toList } = .ok overflowConfig ∧
    (0 < overflowConfig.RangeStart ∧ overflowConfig.RangeStart < overflowConfig.RangeEnd ∧
      overflowConfig.RangeEnd ≤ maxInt) ∧
    (∀ fuel : Nat, enumLoop overflowConfig fuel = none) ∧
    (enumPrefix overflowConfig 3 (overflowConfig.RangeStart, [])).map (fun p => p.uid) =
      [9223372036854775806, 9223372036854775807, -9223372036854775808] := by
  refine ⟨rfl, by decide, ?_, by decide⟩
  intro fuel
  exact enumRun_never_leaves overflowConfig rfl fuel _ _ (by decide)

/-- The loop on the sample configuration: three probes, for the identifiers 1, 2 and 3. -/
theorem enumLoop_sample :
    (enumLoop sampleConfig 5).map (fun started =>
        started.map (fun p => (p.uid, String.mk p.fullURL, String.mk p.formData))) =
      some [(1, "http://h/doc.php?uid=1", "uid=1"), (2, "http://h/doc.php?uid=2", "uid=2"),
        (3, "http://h/doc.php?uid=3", "uid=3")] := by
  decide

/-! ## Flag parsing -/

theorem atoi_range (s : List Char) (v : Int) (h : atoi s = some v) :
    minInt ≤ v ∧ v ≤ maxInt := by
  have h63 : (2 : Nat) ^ (intSize - 1) = 9223372036854775808 := by decide
  have hmin : minInt = -9223372036854775808 := by decide
  have hmax : maxInt = 9223372036854775807 := by decide
  cases s with
  | nil => simp [atoi] at h
  | cons c t =>
    simp only [atoi] at h
    generalize (if (c == '-' || c == '+') = true then t else c :: t) = digits at h
    by_cases hemp : digits.isEmpty = true
    · rw [if_pos hemp] at h; exact absurd h (by simp)
    · rw [if_neg hemp] at h
      cases hp : parseDigits 0 digits with
      | none => rw [hp] at h; exact absurd h (by simp)
      | some un =>
        rw [hp] at h
        simp only [h63] at h
        rw [hmin, hmax]
        by_cases hneg : (c == '-') = true
        · rw [if_pos hneg] at h
          by_cases hu : un > 9223372036854775808
          · rw [if_pos hu] at h; exact absurd h (by simp)
          · rw [if_neg hu, Option.some.injEq] at h
            omega
        · rw [if_neg hneg] at h
          by_cases hu : un ≥ 9223372036854775808
          · rw [if_pos hu] at h; exact absurd h (by simp)
          · rw [if_neg hu, Option.some.injEq] at h
            omega

/-- What `parseFlags` guarantees when it returns a configuration: the raw flags passed
every check, the range is positive, increasing and within `int`, the concurrency is
positive, and `URL` is the raw URL without its trailing slashes. -/
theorem parseFlags_ok (compile : List Char → Except String Regexp) (f : Flags)
    (config : Config) (h : parseFlags compile f = .ok config) :
    f.u ≠ [] ∧ f.r ≠ [] ∧ f.e ≠ [] ∧
    (hasPrefix f.u "http://".toList = true ∨ hasPrefix f.u "https://".toList = true) ∧
    (∃ a b, stringsSplit f.r '-' = [a, b] ∧ atoi a = some config.RangeStart ∧
      atoi b = some config.RangeEnd) ∧
    0 < config.RangeStart ∧ config.RangeStart < config.RangeEnd ∧ config.RangeEnd ≤ maxInt ∧
    compile f.p = .ok config.Regex ∧
    0 < f.c ∧ config.Concurrency = f.c ∧ config.Endpoint = f.e ∧
    config.URL = trimRight f.u "/".toList := by
  unfold parseFlags at h
  split at h
  · simp at h
  split at h
  · simp at h
  rename_i hm
  split at h
  · simp at h
  rename_i hp
  simp only at h
  split at h
  · simp at h
  rename_i hl
  split at h
  · simp at h
  rename_i start hs
  split at h
  · simp at h
  rename_i hs0
  split at h
  · simp at h
  rename_i endVal he
  split at h
  · simp at h
  rename_i he0
  split at h
  · simp at h
  rename_i hse
  split at h
  · simp at h
  rename_i regex hr
  split at h
  · simp at h
  rename_i hc
  simp only [ParseResult.ok.injEq] at h
  subst h
  simp only [Bool.or_eq_true, beq_iff_eq, not_or] at hm
  have hp' : hasPrefix f.u "http://".toList = true ∨ hasPrefix f.u "https://".toList = true := by
    by_contra hcon
    simp only [not_or, Bool.not_eq_true] at hcon
    apply hp
    rw [hcon.1, hcon.2]
    rfl
  have hlen : (stringsSplit f.r '-').length = 2 := by simpa using hl
  obtain ⟨a, b, hab⟩ : ∃ a b, stringsSplit f.r '-' = [a, b] := by
    match hsp : stringsSplit f.r '-', hlen with
    | [a, b], _ => exact ⟨a, b, rfl⟩
  rw [hab] at hs he
  simp only [List.getD_cons_zero, List.getD_cons_succ] at hs he
  refine ⟨hm.1.1, hm.1.2, hm.2, hp', ⟨a, b, hab, hs, he⟩, ?_, ?_,
    (atoi_range _ _ he).2, hr, by omega, rfl, rfl, rfl⟩
  · show 0 < start
    omega
  · show start < endVal
    omega

theorem trimRight_append_keep (a b cutset : List Char) (c : Char)
    (hc : cutset.contains c = false) :
    trimRight (a ++ c :: b) cutset = a ++ c :: trimRight b cutset := by
  have hc' : c ∉ cutset := by simpa using hc
  induction b using List.reverseRecOn with
  | nil => simp [trimRight, List.dropWhile, hc']
  | append_singleton b x ih =>
    by_cases hx : x ∈ cutset
    · have h1 : trimRight (a ++ c :: (b ++ [x])) cutset = trimRight (a ++ c :: b) cutset := by
        simp [trimRight, List.dropWhile, hx]
      have h2 : trimRight (b ++ [x]) cutset = trimRight b cutset := by
        simp [trimRight, List.dropWhile, hx]
      rw [h1, h2, ih]
    · simp [trimRight, List.dropWhile, hx]

/-- The configured URL is never empty: trimming trailing slashes leaves at least the
scheme name and its colon. -/
theorem parseFlags_url_ne_nil (compile : List Char → Except String Regexp) (f : Flags)
    (config : Config) (h : parseFlags compile f = .ok config) : config.URL ≠ [] := by
  obtain ⟨_, _, _, hp, _, _, _, _, _, _, _, _, hurl⟩ := parseFlags_ok compile f config h
  rw [hurl]
  rcases hp with hp | hp
  · obtain ⟨rest, hrest⟩ := List.isPrefixOf_iff_prefix.1 hp
    rw [← hrest]
    have := trimRight_append_keep "http".toList ("//".toList ++ rest) "/".toList ':' (by decide)
    simp only [String.toList, List.cons_append, List.nil_append] at this ⊢
    rw [this]
    simp
  · obtain ⟨rest, hrest⟩ := List.isPrefixOf_iff_prefix.1 hp
    rw [← hrest]
    have := trimRight_append_keep "https".toList ("//".toList ++ rest) "/".toList ':' (by decide)
    simp only [String.toList, List.cons_append, List.nil_append] at this ⊢
    rw [this]
    simp

/-- C10 (defect): with the flag `-u http://` (the scheme alone) and a valid range,
`parseFlags` returns a configuration although its `URL`, the raw value without its
trailing slashes, is `http:` and starts with neither `http://` nor `https://`: the prefix
is checked on the raw value and the slashes are trimmed afterwards. -/
theorem parseFlags_scheme_only_url (compile : List Char → Except String Regexp)
    (regex : Regexp) (h : compile "/documents/.*?\\.[a-zA-Z0-9]+".toList = .ok regex) :
    ∃ config : Config,
      parseFlags compile { u := "http://".toList, r := "1-2".toList, e := "/x".toList } =
        .ok config ∧
      config.URL = "http:".toList ∧
      hasPrefix config.URL "http://".toList = false ∧
      hasPrefix config.URL "https://".toList = false := by
  refine ⟨{ URL := "http:".toList, RangeStart := 1, RangeEnd := 2, Endpoint := "/x".toList,
            Regex := regex, Concurrency := 5 }, ?_, rfl, rfl, rfl⟩
  simp only [parseFlags, h]
  rfl

/-- Instance of C10 with a `regexp.Compile` that accepts the default pattern. -/
theorem parseFlags_scheme_only_url_witness :
    ∃ config : Config,
      parseFlags (fun _ => .ok defaultPattern)
        { u := "http://".toList, r := "1-2".toList, e := "/x".toList } = .ok config ∧
      config.URL = "http:".toList ∧
      hasPrefix config.URL "http://".toList = false ∧
      hasPrefix config.URL "https://".toList = false :=
  parseFlags_scheme_only_url (fun _ => .ok defaultPattern) defaultPattern rfl

/-! ## Probe workers -/

/-- C4: a probe whose request fails at transport level, or whose response has a status
other than 200, leaves the link set as it was, whatever the body of the response holds. -/
theorem probeWorker_failure_inserts_nothing (config : Config) (uid : Int)
    (outcome : ProbeOutcome) (st : Shared)
    (h : (∃ err, outcome = .transportError err) ∨
      (∃ statusCode body, outcome = .response statusCode body ∧ statusCode ≠ 200)) :
    (probeWorker config uid outcome st).linksMap = st.linksMap := by
  rcases h with ⟨err, rfl⟩ | ⟨statusCode, body, rfl, hne⟩
  · rfl
  · simp [probeWorker, hne]

/-- Instance of C4: a response with status 204 whose body holds two links adds nothing to
a link set that holds one link. -/
theorem probeWorker_failure_inserts_nothing_witness :
    (probeWorker sampleConfig 7
        (.response 204 (.ok "see /documents/a.pdf and /documents/b.txt".toList))
        { linksMap := ["/documents/z.txt".toList], output := [] }).linksMap =
      ["/documents/z.txt".toList] :=
  probeWorker_failure_inserts_nothing sampleConfig 7
    (.response 204 (.ok "see /documents/a.pdf and /documents/b.txt".toList))
    { linksMap := ["/documents/z.txt".toList], output := [] }
    (Or.inr ⟨204, _, rfl, by decide⟩)

/-! ## `downloadFile` -/

/-- C8: when the GET fails at transport level or the status is not 200, `downloadFile`
prints a failure line for the URL and leaves every file as it was: nothing is created,
truncated or written. -/
theorem downloadFile_failure_writes_nothing (url dir : List Char) (get : GetResult)
    (write : WriteResult) (fs : FileSystem)
    (h : (∃ err, get = .transportError err) ∨
      (∃ statusCode body, get = .response statusCode body ∧ statusCode ≠ 200)) :
    (downloadFile url dir get write fs).1 = fs ∧
    "Failed to download: ".toList ++ url <+: (downloadFile url dir get write fs).2 := by
  rcases h with ⟨err, rfl⟩ | ⟨statusCode, body, rfl, hne⟩
  · refine ⟨rfl, ?_⟩
    simp only [downloadFile, List.append_assoc]
    exact List.prefix_append _ _
  · simp only [downloadFile, hne, ne_eq, not_false_eq_true, if_true, List.append_assoc,
      true_and]
    exact List.prefix_append _ _

/-- Instance of C8: a 404 answer leaves an existing file of the same name untouched. -/
theorem downloadFile_failure_writes_nothing_witness :
    (downloadFile "http://h/files/a.pdf".toList downloadDir
        (.response 404 "not found".toList) .ok
        [("downloads/a.pdf".toList, "old".toList)]).1 =
      [("downloads/a.pdf".toList, "old".toList)] ∧
    "Failed to download: ".toList ++ "http://h/files/a.pdf".toList <+:
      (downloadFile "http://h/files/a.pdf".toList downloadDir
        (.response 404 "not found".toList) .ok
        [("downloads/a.pdf".toList, "old".toList)]).2 :=
  downloadFile_failure_writes_nothing "http://h/files/a.pdf".toList downloadDir
    (.response 404 "not found".toList) .ok [("downloads/a.pdf".toList, "old".toList)]
    (Or.inr ⟨404, _, rfl, by decide⟩)

theorem initStage_inv (config : Config) (uniqueLinks : List (List Char))
    (hc : 0 < config.Concurrency) : StageInv config uniqueLinks (initStage uniqueLinks) := by
  constructor <;> simp [initStage, OrchPc.holds, OrchPc.added, OrchPc.pending]
  omega

theorem stageStep_inv (config : Config) (uniqueLinks : List (List Char))
    (s s' : DownloadStage) (a : StageAction) (hinv : StageInv config uniqueLinks s)
    (hstep : stageStep config s a = some s') : StageInv config uniqueLinks s' := by
  obtain ⟨h1, h2, h3, h4, h5, h6, h7, h8⟩ := hinv
  cases a with
  | next =>
    simp only [stageStep] at hstep
    split at hstep
    · rename_i link rest hpc hch
      simp only [Option.some.injEq] at hstep
      subst hstep
      simp only [hpc, hch, OrchPc.holds, OrchPc.added, OrchPc.pending] at *
      constructor <;> simp_all [OrchPc.holds, OrchPc.added, OrchPc.pending]
      omega
    · rename_i hpc hch
      simp only [Option.some.injEq] at hstep
      subst hstep
      simp only [hpc, hch, OrchPc.holds, OrchPc.added, OrchPc.pending] at *
      constructor <;> simp_all [OrchPc.holds, OrchPc.added, OrchPc.pending]
    · simp at hstep
  | acquire =>
    simp only [stageStep] at hstep
    split at hstep
    · rename_i link hpc
      split at hstep
      · rename_i hlt
        simp only [Option.some.injEq] at hstep
        subst hstep
        simp only [hpc, OrchPc.holds, OrchPc.added, OrchPc.pending] at *
        constructor <;> simp_all [OrchPc.holds, OrchPc.added, OrchPc.pending] <;> omega
      · simp at hstep
    · simp at hstep
  | spawn =>
    simp only [stageStep] at hstep
    split at hstep
    · rename_i link hpc
      simp only [Option.some.injEq] at hstep
      subst hstep
      simp only [hpc, OrchPc.holds, OrchPc.added, OrchPc.pending] at *
      constructor <;> simp_all [OrchPc.holds, OrchPc.added, OrchPc.pending] <;> omega
    · simp at hstep
  | finish =>
    simp only [stageStep] at hstep
    split at hstep
    · simp only [Option.some.injEq] at hstep
      subst hstep
      constructor <;> simp_all <;> omega
    · simp at hstep
  | release =>
    simp only [stageStep] at hstep
    split at hstep
    · simp only [Option.some.injEq] at hstep
      subst hstep
      constructor <;> simp_all <;> omega
    · simp at hstep
  | done =>
    simp only [stageStep] at hstep
    split at hstep
    · simp only [Option.some.injEq] at hstep
      subst hstep
      constructor <;> simp_all
      omega
    · simp at hstep
  | join =>
    simp only [stageStep] at hstep
    split at hstep
    · rename_i hpc
      split at hstep
      · simp only [Option.some.injEq] at hstep
        subst hstep
        simp only [hpc, OrchPc.holds, OrchPc.added, OrchPc.pending] at *
        constructor <;> simp_all [OrchPc.holds, OrchPc.added, OrchPc.pending]
      · simp at hstep
    · simp at hstep

theorem runStage_inv (config : Config) (uniqueLinks : List (List Char)) :
    ∀ (acts : List StageAction) (s s' : DownloadStage), StageInv config uniqueLinks s →
      runStage config s acts = some s' → StageInv config uniqueLinks s' := by
  intro acts
  induction acts with
  | nil =>
    intro s s' hinv hrun
    simp only [runStage, Option.some.injEq] at hrun
    exact hrun ▸ hinv
  | cons a as ih =>
    intro s s' hinv hrun
    simp only [runStage] at hrun
    split at hrun
    · rename_i s1 hstep
      exact ih s1 s' (stageStep_inv config uniqueLinks s s1 a hinv hstep) hrun
    · simp at hrun

theorem runStage_append (config : Config) : ∀ (as bs : List StageAction) (s : DownloadStage),
    runStage config s (as ++ bs) =
      match runStage config s as with
      | some s' => runStage config s' bs
      | none => none := by
  intro as
  induction as with
  | nil => intro bs s; rfl
  | cons a as ih =>
    intro bs s
    simp only [List.cons_append, runStage]
    cases stageStep config s a with
    | none => rfl
    | some s1 => exact ih bs s1

/-- No deadlock: in every state that satisfies the invariant and is not completed, some
step is enabled. -/
theorem stage_progress (config : Config) (uniqueLinks : List (List Char)) (s : DownloadStage)
    (hc : 0 < config.Concurrency) (hinv : StageInv config uniqueLinks s)
    (hpc : s.pc ≠ .completed) : ∃ a, (stageStep config s a).isSome = true := by
  obtain ⟨h1, h2, h3, h4, h5, h6, h7, h8⟩ := hinv
  cases hp : s.pc with
  | range =>
    cases hch : s.downloadChan with
    | nil => exact ⟨.next, by simp [stageStep, hp, hch]⟩
    | cons link rest => exact ⟨.next, by simp [stageStep, hp, hch]⟩
  | send link =>
    by_cases hlt : (s.semaphore : Int) < config.Concurrency
    · exact ⟨.acquire, by simp [stageStep, hp, hlt]⟩
    · simp only [hp, OrchPc.holds] at h1
      have hpos : 0 < s.downloading + s.finished := by omega
      by_cases hd : 0 < s.downloading
      · exact ⟨.finish, by simp [stageStep, hd]⟩
      · have hf : 0 < s.finished ∧ 0 < s.semaphore := by omega
        exact ⟨.release, by simp [stageStep, hf]⟩
  | spawn link => exact ⟨.spawn, by simp [stageStep, hp]⟩
  | wait =>
    by_cases hw : s.wg = 0
    · exact ⟨.join, by simp [stageStep, hp, hw]⟩
    · simp only [hp, OrchPc.holds, OrchPc.added] at h1 h3
      by_cases hd : 0 < s.downloading
      · exact ⟨.finish, by simp [stageStep, hd]⟩
      · by_cases hf : 0 < s.finished
        · have hf' : 0 < s.finished ∧ 0 < s.semaphore := by omega
          exact ⟨.release, by simp [stageStep, hf']⟩
        · have hr : 0 < s.released := by omega
          exact ⟨.done, by simp [stageStep, hr]⟩
  | completed => exact absurd hp hpc

/-- C3: in every state the download stage can reach, the workers that have been started
and have not yet released their slot number at most `config.Concurrency`, and once the
stage has completed no slot is held: every slot acquired has been released, one per
link. -/
theorem downloadStage_bounded (config : Config) (uniqueLinks : List (List Char))
    (acts : List StageAction) (s : DownloadStage) (hc : 0 < config.Concurrency)
    (hrun : runStage config (initStage uniqueLinks) acts = some s) :
    (s.inFlight : Int) ≤ config.Concurrency ∧
    (s.pc = .completed →
      s.inFlight = 0 ∧ s.semaphore = 0 ∧ s.releasedTotal = s.acquired ∧
      s.acquired = uniqueLinks.length) := by
  obtain ⟨h1, h2, h3, h4, h5, h6, h7, h8⟩ :=
    runStage_inv config uniqueLinks acts _ s (initStage_inv config uniqueLinks hc) hrun
  constructor
  · simp only [DownloadStage.inFlight]
    omega
  · intro hpc
    have hwg := h8 hpc
    have hch := h7 (Or.inr hpc)
    simp only [hpc, OrchPc.holds, OrchPc.added, hch, List.length_nil] at h1 h3 h6
    simp only [DownloadStage.inFlight]
    omega

/-- Instance of C3: three links, concurrency 5, a schedule in which up to three workers
hold a slot at once and which runs to completion. -/
theorem downloadStage_bounded_witness :
    runStage sampleConfig (initStage ["/a".toList, "/b".toList, "/c".toList])
        [.next, .acquire, .spawn, .next, .acquire, .spawn, .finish, .next, .acquire, .spawn,
          .release, .finish, .done, .release, .finish, .done, .release, .done, .next, .join] =
      some { downloadChan := [], pc := .completed, semaphore := 0, wg := 0, downloading := 0,
             finished := 0, released := 0,
             started := ["http://h/a".toList, "http://h/b".toList, "http://h/c".toList],
             acquired := 3, releasedTotal := 3 } ∧
    ((0 : Nat) : Int) ≤ sampleConfig.Concurrency ∧
    (OrchPc.completed = OrchPc.completed → 0 = 0 ∧ 0 = 0 ∧ 3 = 3 ∧ 3 = 3) :=
  ⟨by decide,
    downloadStage_bounded sampleConfig ["/a".toList, "/b".toList, "/c".toList]
      [.next, .acquire, .spawn, .next, .acquire, .spawn, .finish, .next, .acquire, .spawn,
        .release, .finish, .done, .release, .finish, .done, .release, .done, .next, .join]
      { downloadChan := [], pc := .completed, semaphore := 0, wg := 0, downloading := 0,
        finished := 0, released := 0,
        started := ["http://h/a".toList, "http://h/b".toList, "http://h/c".toList],
        acquired := 3, releasedTotal := 3 }
      (by decide) (by decide)⟩

theorem sequential_round (config : Config) (hc : 0 < config.Concurrency)
    (link : List Char) (rest started : List (List Char)) (acquired releasedTotal : Nat) :
    runStage config
        { downloadChan := link :: rest, pc := .range, semaphore := 0, wg := 0,
          downloading := 0, finished := 0, released := 0, started := started,
          acquired := acquired, releasedTotal := releasedTotal }
        [.next, .acquire, .spawn, .finish, .release, .done] =
      some { downloadChan := rest, pc := .range, semaphore := 0, wg := 0, downloading := 0,
             finished := 0, released := 0, started := started ++ [config.URL ++ link],
             acquired := acquired + 1, releasedTotal := releasedTotal + 1 } := by
  simp [runStage, stageStep, hc]

/-- With a positive concurrency the stage can always run to completion: the schedule that
runs the workers one after the other is enabled at every step. -/
theorem sequentialSchedule_completes (config : Config) (hc : 0 < config.Concurrency) :
    ∀ (links started : List (List Char)) (acquired releasedTotal : Nat),
      ∃ s, runStage config
          { downloadChan := links, pc := .range, semaphore := 0, wg := 0, downloading := 0,
            finished := 0, released := 0, started := started, acquired := acquired,
            releasedTotal := releasedTotal }
          (sequentialSchedule links) = some s ∧ s.pc = .completed := by
  intro links
  induction links with
  | nil =>
    intro started acquired releasedTotal
    exact ⟨{ downloadChan := [], pc := .completed, semaphore := 0, wg := 0, downloading := 0,
             finished := 0, released := 0, started := started, acquired := acquired,
             releasedTotal := releasedTotal },
      by simp [sequentialSchedule, runStage, stageStep], rfl⟩
  | cons link rest ih =>
    intro started acquired releasedTotal
    obtain ⟨s, hs, hpc⟩ := ih (started ++ [config.URL ++ link]) (acquired + 1)
      (releasedTotal + 1)
    refine ⟨s, ?_, hpc⟩
    have hsched : sequentialSchedule (link :: rest) =
        [.next, .acquire, .spawn, .finish, .release, .done] ++ sequentialSchedule rest := by
      simp [sequentialSchedule]
    rw [hsched, runStage_append, sequential_round config hc]
    exact hs

/-! ## The link set -/

theorem mem_mapInsert (m : List (List Char)) (link x : List Char) :
    x ∈ mapInsert m link ↔ x ∈ m ∨ x = link := by
  unfold mapInsert
  split
  · constructor
    · exact Or.inl
    · rintro (h | rfl)
      · exact h
      · assumption
  · simp

theorem nodup_mapInsert (m : List (List Char)) (link : List Char) (h : m.Nodup) :
    (mapInsert m link).Nodup := by
  unfold mapInsert
  split
  · exact h
  · rename_i hn
    rw [List.nodup_append]
    refine ⟨h, by simp, ?_⟩
    intro a ha hb
    simp only [List.mem_singleton] at hb
    exact hn (hb ▸ ha)

theorem mem_foldl_mapInsert (links : List (List Char)) : ∀ (m : List (List Char))
    (x : List Char), x ∈ links.foldl mapInsert m ↔ x ∈ m ∨ x ∈ links := by
  induction links with
  | nil => intro m x; simp
  | cons l ls ih =>
    intro m x
    rw [List.foldl_cons, ih, mem_mapInsert, List.mem_cons, or_assoc]

theorem nodup_foldl_mapInsert (links : List (List Char)) : ∀ (m : List (List Char)),
    m.Nodup → (links.foldl mapInsert m).Nodup := by
  induction links with
  | nil => intro m h; exact h
  | cons l ls ih => intro m h; exact ih _ (nodup_mapInsert m l h)

theorem probeWorker_nodup (config : Config) (uid : Int) (outcome : ProbeOutcome)
    (st : Shared) (h : st.linksMap.Nodup) : (probeWorker config uid outcome st).linksMap.Nodup := by
  unfold probeWorker
  split
  · exact h
  · exact h
  · split
    · exact h
    · split
      · exact h
      · simp only
        split
        · exact h
        · exact nodup_foldl_mapInsert _ _ h

theorem probeWorker_mem (config : Config) (uid : Int) (outcome : ProbeOutcome)
    (st : Shared) (x : List Char) :
    x ∈ (probeWorker config uid outcome st).linksMap ↔
      x ∈ st.linksMap ∨
        ∃ body, outcome = .response 200 (.ok body) ∧ x ∈ extractLinks body config.Regex := by
  cases outcome with
  | requestError err => simp [probeWorker]
  | transportError err => simp [probeWorker]
  | response statusCode body =>
    by_cases hs : statusCode = 200
    · subst hs
      cases body with
      | error err => simp [probeWorker]
      | ok b =>
        simp only [probeWorker, ne_eq, not_true_eq_false, if_false]
        split
        · rename_i hl
          have : extractLinks b config.Regex = [] := List.eq_nil_of_length_eq_zero hl
          simp [this]
        · simp [mem_foldl_mapInsert]
    · simp [probeWorker, hs]

theorem runProbes_nodup (config : Config) : ∀ (order : List (Int × ProbeOutcome))
    (st : Shared), st.linksMap.Nodup → (runProbes config order st).linksMap.Nodup := by
  intro order
  induction order with
  | nil => intro st h; exact h
  | cons p ps ih =>
    intro st h
    exact ih _ (probeWorker_nodup config p.1 p.2 st h)

theorem runProbes_mem (config : Config) (x : List Char) :
    ∀ (order : List (Int × ProbeOutcome)) (st : Shared),
      x ∈ (runProbes config order st).linksMap ↔
        x ∈ st.linksMap ∨
          ∃ uid body, (uid, ProbeOutcome.response 200 (.ok body)) ∈ order ∧
            x ∈ extractLinks body config.Regex := by
  intro order
  induction order with
  | nil => intro st; simp [runProbes]
  | cons p ps ih =>
    intro st
    have hstep : runProbes config (p :: ps) st =
        runProbes config ps (probeWorker config p.1 p.2 st) := rfl
    rw [hstep, ih, probeWorker_mem]
    constructor
    · rintro ((h | ⟨body, hb, hx⟩) | ⟨uid, body, hm, hx⟩)
      · exact Or.inl h
      · exact Or.inr ⟨p.1, body, by rw [← hb]; exact List.mem_cons_self _ _, hx⟩
      · exact Or.inr ⟨uid, body, List.mem_cons_of_mem _ hm, hx⟩
    · rintro (h | ⟨uid, body, hm, hx⟩)
      · exact Or.inl (Or.inl h)
      · rcases List.mem_cons.1 hm with e | e
        · exact Or.inl (Or.inr ⟨body, by rw [← e], hx⟩)
        · exact Or.inr ⟨uid, body, e, hx⟩

theorem url_append_injective (base : List Char) :
    Function.Injective (fun link : List Char => base ++ link) := by
  intro a b h
  exact List.append_cancel_left h

/-- C2: whatever the probes answer and in whatever order the probe goroutines run their
critical sections, the list `uniqueLinks` read off `linksMap` has no duplicate and holds
exactly the links `extractLinks` returns on the bodies of the probes answered with status
200; the download stage then hands the URLs `config.URL ++ link` to `downloadFile` in the
order of `uniqueLinks`, never one twice, and every run that completes has started exactly
one download per link (and a completing run exists). -/
theorem uniqueLinks_distinct_and_exact (config : Config)
    (probes order : List (Int × ProbeOutcome)) (uniqueLinks : List (List Char))
    (acts : List StageAction) (s : DownloadStage)
    (horder : order.Perm probes)
    (hiter : uniqueLinks.Perm (runProbes config order initShared).linksMap)
    (hc : 0 < config.Concurrency)
    (hrun : runStage config (initStage uniqueLinks) acts = some s) :
    uniqueLinks.Nodup ∧
    (∀ link, link ∈ uniqueLinks ↔
      ∃ uid body, (uid, ProbeOutcome.response 200 (.ok body)) ∈ probes ∧
        link ∈ extractLinks body config.Regex) ∧
    s.started <+: uniqueLinks.map (fun link => config.URL ++ link) ∧
    s.started.Nodup ∧
    (s.pc = .completed → s.started = uniqueLinks.map (fun link => config.URL ++ link)) ∧
    (∃ acts' s', runStage config (initStage uniqueLinks) acts' = some s' ∧
      s'.pc = .completed) := by
  have hnodup : uniqueLinks.Nodup :=
    hiter.nodup_iff.2 (runProbes_nodup config order initShared List.nodup_nil)
  have hinv := runStage_inv config uniqueLinks acts _ s (initStage_inv config uniqueLinks hc) hrun
  have hpre : s.started <+: uniqueLinks.map (fun link => config.URL ++ link) :=
    ⟨_, hinv.links⟩
  have hmapnodup : (uniqueLinks.map (fun link => config.URL ++ link)).Nodup :=
    hnodup.map (url_append_injective config.URL)
  refine ⟨hnodup, ?_, hpre, hmapnodup.sublist hpre.sublist, ?_, ?_⟩
  · intro link
    rw [hiter.mem_iff, runProbes_mem]
    simp only [initShared, List.not_mem_nil, false_or]
    constructor
    · rintro ⟨uid, body, hm, hx⟩
      exact ⟨uid, body, horder.mem_iff.1 hm, hx⟩
    · rintro ⟨uid, body, hm, hx⟩
      exact ⟨uid, body, horder.mem_iff.2 hm, hx⟩
  · intro hpc
    have hl := hinv.links
    rw [hinv.drained (Or.inr hpc), hpc] at hl
    simpa [OrchPc.pending] using hl
  · obtain ⟨s', hs', hpc'⟩ := sequentialSchedule_completes config hc uniqueLinks [] 0 0
    exact ⟨sequentialSchedule uniqueLinks, s', hs', hpc'⟩

/-- Instance of C2 on the sample run: the probes run in another order, the map is iterated
in another order, and both downloads run at once. -/
theorem uniqueLinks_distinct_and_exact_witness :
    (sampleOrder.Perm sampleProbes ∧
      sampleUniqueLinks.Perm (runProbes sampleConfig sampleOrder initShared).linksMap ∧
      runStage sampleConfig (initStage sampleUniqueLinks) sampleSchedule = some sampleFinal) ∧
    (sampleUniqueLinks.Nodup ∧
      (∀ link, link ∈ sampleUniqueLinks ↔
        ∃ uid body, (uid, ProbeOutcome.response 200 (.ok body)) ∈ sampleProbes ∧
          link ∈ extractLinks body sampleConfig.Regex) ∧
      sampleFinal.started <+: sampleUniqueLinks.map (fun link => sampleConfig.URL ++ link) ∧
      sampleFinal.started.Nodup ∧
      (sampleFinal.pc = .completed →
        sampleFinal.started = sampleUniqueLinks.map (fun link => sampleConfig.URL ++ link)) ∧
      (∃ acts' s', runStage sampleConfig (initStage sampleUniqueLinks) acts' = some s' ∧
        s'.pc = .completed)) :=
  ⟨⟨List.Perm.swap _ _ _, List.Perm.swap _ _ _, by decide⟩,
    uniqueLinks_distinct_and_exact sampleConfig sampleProbes sampleOrder sampleUniqueLinks
      sampleSchedule sampleFinal (List.Perm.swap _ _ _) (List.Perm.swap _ _ _) (by decide)
      (by decide)⟩

/-! ## The engine for simple patterns is leftmost-first -/

theorem starEnds_sound (cs : CharSet) (g : Bool) : ∀ (s x : List Char),
    x ∈ starEnds cs g s → ∃ u, s = u ++ x ∧ Matches (.star g cs) u := by
  intro s
  induction s with
  | nil =>
    intro x h
    simp only [starEnds, List.mem_singleton] at h
    exact ⟨[], by simp [h], Matches.starNil g cs⟩
  | cons c t ih =>
    intro x h
    by_cases hc : cs.accepts c = true
    · have hx : x = c :: t ∨ x ∈ starEnds cs g t := by
        cases g <;> simp [starEnds, hc] at h <;> tauto
      rcases hx with rfl | hx
      · exact ⟨[], rfl, Matches.starNil g cs⟩
      · obtain ⟨u, ht, hm⟩ := ih x hx
        exact ⟨c :: u, by rw [ht]; rfl, Matches.starCons g cs c u hc hm⟩
    · have hc' : cs.accepts c = false := by simpa using hc
      have hx : x = c :: t := by simpa [starEnds, hc'] using h
      exact ⟨[], by simp [hx], Matches.starNil g cs⟩

theorem self_mem_starEnds (cs : CharSet) (g : Bool) (s : List Char) :
    s ∈ starEnds cs g s := by
  cases s with
  | nil => simp [starEnds]
  | cons c t =>
    by_cases hc : cs.accepts c = true
    · cases g <;> simp [starEnds, hc]
    · simp [starEnds, hc]

theorem starEnds_complete (cs : CharSet) (g : Bool) : ∀ (p : Pattern) (u : List Char),
    Matches p u → p = .star g cs → ∀ v : List Char, v ∈ starEnds cs g (u ++ v) := by
  intro p u h
  induction h with
  | emptyMatch => intro hp; cases hp
  | char cs' c _ => intro hp; cases hp
  | concat a b u' v' _ _ _ _ => intro hp; cases hp
  | alternateLeft a b u' _ _ => intro hp; cases hp
  | alternateRight a b u' _ _ => intro hp; cases hp
  | starNil g' cs' =>
    intro _ v
    exact self_mem_starEnds _ _ _
  | starCons g' cs' c w hc _ ih =>
    intro hp v
    cases hp
    have := ih rfl v
    cases g <;> simp [starEnds, hc, this]

/-- Soundness of the search: every text it leaves is what remains after a match. -/
theorem matchEnds_sound : ∀ (p : Pattern) (s x : List Char),
    x ∈ matchEnds p s → ∃ u, s = u ++ x ∧ Matches p u := by
  intro p
  induction p with
  | emptyMatch =>
    intro s x h
    simp only [matchEnds, List.mem_singleton] at h
    exact ⟨[], by simp [h], Matches.emptyMatch⟩
  | char cs =>
    intro s x h
    cases s with
    | nil => simp [matchEnds] at h
    | cons c t =>
      by_cases hc : cs.accepts c = true
      · simp only [matchEnds, hc, if_true, List.mem_singleton] at h
        exact ⟨[c], by simp [h], Matches.char cs c hc⟩
      · simp [matchEnds, hc] at h
  | concat a b iha ihb =>
    intro s x h
    simp only [matchEnds, List.mem_flatMap] at h
    obtain ⟨t, ht, hx⟩ := h
    obtain ⟨u1, hs, hm1⟩ := iha s t ht
    obtain ⟨u2, ht2, hm2⟩ := ihb t x hx
    exact ⟨u1 ++ u2, by rw [hs, ht2, List.append_assoc], Matches.concat a b u1 u2 hm1 hm2⟩
  | alternate a b iha ihb =>
    intro s x h
    simp only [matchEnds, List.mem_append] at h
    rcases h with h | h
    · obtain ⟨u, hs, hm⟩ := iha s x h
      exact ⟨u, hs, Matches.alternateLeft a b u hm⟩
    · obtain ⟨u, hs, hm⟩ := ihb s x h
      exact ⟨u, hs, Matches.alternateRight a b u hm⟩
  | star g cs =>
    intro s x h
    simp only [matchEnds] at h
    exact starEnds_sound cs g s x h

/-- Completeness of the search: what remains after any match at the start of the text is
among the texts it leaves. -/
theorem matchEnds_complete : ∀ (p : Pattern) (u v : List Char),
    Matches p u → v ∈ matchEnds p (u ++ v) := by
  intro p
  induction p with
  | emptyMatch =>
    intro u v h
    cases h
    simp [matchEnds]
  | char cs =>
    intro u v h
    cases h with
    | char _ c hc => simp [matchEnds, hc]
  | concat a b iha ihb =>
    intro u v h
    cases h with
    | concat _ _ u1 u2 h1 h2 =>
      simp only [matchEnds, List.mem_flatMap]
      refine ⟨u2 ++ v, ?_, ihb u2 v h2⟩
      have := iha u1 (u2 ++ v) h1
      simpa [List.append_assoc] using this
  | alternate a b iha ihb =>
    intro u v h
    simp only [matchEnds, List.mem_append]
    cases h with
    | alternateLeft _ _ _ h1 => exact Or.inl (iha u v h1)
    | alternateRight _ _ _ h2 => exact Or.inr (ihb u v h2)
  | star g cs =>
    intro u v h
    simp only [matchEnds]
    exact starEnds_complete cs g _ u h rfl v

theorem matchPrefix_some (p : Pattern) (s : List Char) (l : Nat)
    (h : matchPrefix p s = some l) :
    ∃ u v, s = u ++ v ∧ Matches p u ∧ l = u.length := by
  unfold matchPrefix at h
  cases hh : (matchEnds p s).head? with
  | none => rw [hh] at h; simp at h
  | some rest =>
    rw [hh] at h
    simp only [Option.map_some', Option.some.injEq] at h
    have hmem : rest ∈ matchEnds p s := List.mem_of_mem_head? (by rw [hh]; rfl)
    obtain ⟨u, hs, hm⟩ := matchEnds_sound p s rest hmem
    refine ⟨u, rest, hs, hm, ?_⟩
    rw [← h, hs]
    simp

theorem matchPrefix_none (p : Pattern) (s : List Char) (h : matchPrefix p s = none) :
    ∀ u v, s = u ++ v → ¬ Matches p u := by
  intro u v hs hm
  unfold matchPrefix at h
  simp only [Option.map_eq_none', List.head?_eq_none_iff] at h
  have := matchEnds_complete p u v hm
  rw [← hs, h] at this
  simp at this

theorem searchFrom_of_matchPrefix (p : Pattern) (s : List Char) (i l : Nat)
    (h : matchPrefix p s = some l) : searchFrom p s i = some (i, i + l) := by
  cases s with
  | nil => simp [searchFrom, h]
  | cons c t => simp [searchFrom, h]

theorem searchFrom_some (p : Pattern) : ∀ (s : List Char) (i m0 m1 : Nat),
    searchFrom p s i = some (m0, m1) →
      ∃ pre u v, s = pre ++ (u ++ v) ∧ m0 = i + pre.length ∧ m1 = m0 + u.length ∧
        Matches p u ∧ matchPrefix p (u ++ v) = some u.length ∧
        ∀ pre' u' v', s = pre' ++ (u' ++ v') → Matches p u' → pre.length ≤ pre'.length := by
  intro s
  induction s with
  | nil =>
    intro i m0 m1 h
    cases hp : matchPrefix p [] with
    | none => simp [searchFrom, hp] at h
    | some l =>
      simp only [searchFrom, hp, Option.map_some', Option.some.injEq, Prod.mk.injEq] at h
      obtain ⟨u, v, hs, hm, hl⟩ := matchPrefix_some p [] l hp
      refine ⟨[], u, v, by simpa using hs, by simp [h.1], by rw [← h.2, ← h.1, hl], hm, ?_,
        ?_⟩
      · rw [← hs, ← hl]; exact hp
      · intro pre' u' v' _ _; simp
  | cons c t ih =>
    intro i m0 m1 h
    cases hp : matchPrefix p (c :: t) with
    | some l =>
      simp only [searchFrom, hp, Option.some.injEq, Prod.mk.injEq] at h
      obtain ⟨u, v, hs, hm, hl⟩ := matchPrefix_some p (c :: t) l hp
      refine ⟨[], u, v, by simpa using hs, by simp [h.1], by rw [← h.2, ← h.1, hl], hm, ?_,
        ?_⟩
      · rw [← hs, ← hl]; exact hp
      · intro pre' u' v' _ _; simp
    | none =>
      simp only [searchFrom, hp] at h
      obtain ⟨pre, u, v, hs, h0, h1, hm, hcan, hmin⟩ := ih (i + 1) m0 m1 h
      refine ⟨c :: pre, u, v, by rw [hs]; rfl, by simp [h0]; omega, h1, hm, hcan, ?_⟩
      intro pre' u' v' hs' hm'
      cases pre' with
      | nil => exact absurd hm' (matchPrefix_none p (c :: t) hp u' v' (by simpa using hs'))
      | cons d pre'' =>
        simp only [List.cons_append, List.cons.injEq] at hs'
        have := hmin pre'' u' v' hs'.2 hm'
        simp only [List.length_cons]
        omega

theorem searchFrom_none (p : Pattern) : ∀ (s : List Char) (i : Nat),
    searchFrom p s i = none → ∀ pre u v, s = pre ++ (u ++ v) → ¬ Matches p u := by
  intro s
  induction s with
  | nil =>
    intro i h pre u v hs
    have hp : matchPrefix p [] = none := by
      cases hp : matchPrefix p [] with
      | none => rfl
      | some l => simp [searchFrom, hp] at h
    have hpre : pre = [] := by
      cases pre with
      | nil => rfl
      | cons a b => simp at hs
    subst hpre
    exact matchPrefix_none p [] hp u v (by simpa using hs)
  | cons c t ih =>
    intro i h pre u v hs
    cases hp : matchPrefix p (c :: t) with
    | some l => simp [searchFrom, hp] at h
    | none =>
      simp only [searchFrom, hp] at h
      cases pre with
      | nil => exact matchPrefix_none p (c :: t) hp u v (by simpa using hs)
      | cons d pre' =>
        simp only [List.cons_append, List.cons.injEq] at hs
        exact ih (i + 1) h pre' u v hs.2

theorem occurs_decomp (p : Pattern) (s : List Char) (i j : Nat) (h : Occurs p s i j) :
    ∃ pre u v, s = pre ++ (u ++ v) ∧ pre.length = i ∧ i + u.length = j ∧ Matches p u := by
  obtain ⟨hij, hj, hm⟩ := h
  refine ⟨s.take i, slice s i j, (s.drop i).drop (j - i), ?_, ?_, ?_, hm⟩
  · simp only [slice]
    rw [List.take_append_drop, List.take_append_drop]
  · rw [List.length_take]; omega
  · simp only [slice, List.length_take, List.length_drop]; omega

theorem decomp_occurs (p : Pattern) (pre u v : List Char) (hm : Matches p u) :
    Occurs p (pre ++ (u ++ v)) pre.length (pre.length + u.length) := by
  refine ⟨by omega, by simp, ?_⟩
  have : slice (pre ++ (u ++ v)) pre.length (pre.length + u.length) = u := by
    simp [slice]
  rw [this]
  exact hm

theorem compile_found (p : Pattern) (s : List Char) (pos m0 m1 : Nat) (hpos : pos ≤ s.length)
    (h : p.compile.doExecute s pos = some (m0, m1)) :
    pos ≤ m0 ∧ Occurs p s m0 m1 ∧ p.compile.doExecute s m0 = some (m0, m1) ∧
    ∀ i j, pos ≤ i → i < m0 → ¬ Occurs p s i j := by
  simp only [Pattern.compile] at h ⊢
  obtain ⟨pre, u, v, hs, h0, h1, hm, hcan, hmin⟩ := searchFrom_some p _ pos m0 m1 h
  have hs' : s = (s.take pos ++ pre) ++ (u ++ v) := by
    rw [List.append_assoc, ← hs, List.take_append_drop]
  have hlen : (s.take pos ++ pre).length = m0 := by
    rw [List.length_append, List.length_take, h0]; omega
  refine ⟨by omega, ?_, ?_, ?_⟩
  · have := decomp_occurs p (s.take pos ++ pre) u v hm
    rw [← hs', hlen, ← h1] at this
    exact this
  · have hd : s.drop m0 = u ++ v := by
      conv_lhs => rw [hs']
      exact List.drop_left' hlen
    rw [hd, searchFrom_of_matchPrefix p _ m0 _ hcan, h1]
  · intro i j hi hlt hocc
    obtain ⟨pre', u', v', hsd, hl', _, hm'⟩ := occurs_decomp p s i j hocc
    have hdrop : s.drop pos = pre'.drop pos ++ (u' ++ v') := by
      conv_lhs => rw [hsd]
      exact List.drop_append_of_le_length (by omega)
    have := hmin _ u' v' hdrop hm'
    rw [List.length_drop] at this
    omega

theorem compile_notFound (p : Pattern) (s : List Char) (pos : Nat)
    (h : p.compile.doExecute s pos = none) : ∀ i j, pos ≤ i → ¬ Occurs p s i j := by
  intro i j hi hocc
  simp only [Pattern.compile] at h
  obtain ⟨pre', u', v', hsd, hl', _, hm'⟩ := occurs_decomp p s i j hocc
  have hdrop : s.drop pos = pre'.drop pos ++ (u' ++ v') := by
    conv_lhs => rw [hsd]
    exact List.drop_append_of_le_length (by omega)
  exact searchFrom_none p _ pos h _ u' v' hdrop hm'

/-- The search of a compiled simple pattern is leftmost-first for the language of the
pattern. -/
theorem compile_leftmostFirst (p : Pattern) : p.compile.LeftmostFirst (Occurs p) where
  bounds := fun _ _ _ h => ⟨h.1, h.2.1⟩
  found := fun s pos m0 m1 hpos h => compile_found p s pos m0 m1 hpos h
  notFound := fun s pos _ h => compile_notFound p s pos h

/-- A search that depends on the position is leftmost-first as well: the anchored pattern
`^a`, whose matches are judged in the whole text. -/
theorem anchoredA_leftmostFirst : anchoredA.LeftmostFirst anchoredAMatch where
  bounds := by
    intro s i j h
    obtain ⟨rfl, rfl, hs⟩ := h
    cases s with
    | nil => simp at hs
    | cons c t => simp
  found := by
    intro s pos m0 m1 _ h
    simp only [anchoredA] at h ⊢
    split at h
    · rename_i hc
      simp only [Option.some.injEq, Prod.mk.injEq] at h
      obtain ⟨rfl, rfl⟩ := h
      refine ⟨by omega, ⟨rfl, rfl, hc.2⟩, by simp [hc.2], ?_⟩
      intro i j hi hlt
      omega
    · simp at h
  notFound := by
    intro s pos _ h i j hi hm
    obtain ⟨rfl, rfl, hs⟩ := hm
    simp only [anchoredA] at h
    have hpos : pos = 0 := by omega
    simp [hpos, hs] at h

/-- The anchored pattern `^a` on `aab`: the second `a` is not at the start of the text and
is not returned. -/
theorem extractLinks_anchored : extractLinks "aab".toList anchoredA = ["a".toList] := by
  decide

/-! ## The loop of `allMatches` -/

theorem allMatches_stop (re : Regexp) (s : List Char) (n fuel pos i : Nat) (prev : Int)
    (h : ¬ (i < n ∧ pos ≤ s.length)) : allMatches re s n (fuel + 1) pos i prev = [] := by
  simp only [allMatches, if_neg h]

theorem allMatches_none (re : Regexp) (s : List Char) (n fuel pos i : Nat) (prev : Int)
    (h : i < n ∧ pos ≤ s.length) (hd : re.doExecute s pos = none) :
    allMatches re s n (fuel + 1) pos i prev = [] := by
  simp only [allMatches, if_pos h, hd]

theorem allMatches_empty_reject (re : Regexp) (s : List Char) (n fuel pos i m0 m1 : Nat)
    (prev : Int) (h : i < n ∧ pos ≤ s.length) (hd : re.doExecute s pos = some (m0, m1))
    (he : m1 = pos) (hp : (m0 : Int) = prev) :
    allMatches re s n (fuel + 1) pos i prev = allMatches re s n fuel (pos + 1) i (m1 : Int) := by
  have hpos' : (if pos < s.length then pos + 1 else s.length + 1) = pos + 1 := by
    split <;> omega
  simp [allMatches, h, hd, he, hp, hpos']

theorem allMatches_empty_accept (re : Regexp) (s : List Char) (n fuel pos i m0 m1 : Nat)
    (prev : Int) (h : i < n ∧ pos ≤ s.length) (hd : re.doExecute s pos = some (m0, m1))
    (he : m1 = pos) (hp : ¬ (m0 : Int) = prev) :
    allMatches re s n (fuel + 1) pos i prev =
      (m0, m1) :: allMatches re s n fuel (pos + 1) (i + 1) (m1 : Int) := by
  have hpos' : (if pos < s.length then pos + 1 else s.length + 1) = pos + 1 := by
    split <;> omega
  simp [allMatches, h, hd, he, hp, hpos']

theorem allMatches_nonempty (re : Regexp) (s : List Char) (n fuel pos i m0 m1 : Nat)
    (prev : Int) (h : i < n ∧ pos ≤ s.length) (hd : re.doExecute s pos = some (m0, m1))
    (he : ¬ m1 = pos) :
    allMatches re s n (fuel + 1) pos i prev =
      (m0, m1) :: allMatches re s n fuel m1 (i + 1) (m1 : Int) := by
  simp [allMatches, h, hd, he]

/-- The invariant of the loop of `allMatches` for a leftmost-first engine, for a loop
entered at `pos` with `prevMatchEnd = prev` and enough fuel to reach the end of the text:
every match delivered is a match, the one the search from its own start returns; the
matches are delivered from left to right without overlap; and every match that starts at
or after `pos` starts inside a delivered match, or at the end of one and the pattern
matches the empty text there, or at `pos` itself when the previous match ended there and
the pattern matches the empty text there. -/
theorem allMatches_spec (re : Regexp) (isMatch : List Char → Nat → Nat → Prop)
    (hre : re.LeftmostFirst isMatch) (s : List Char) :
    ∀ (fuel pos i : Nat) (prev : Int), s.length + 1 ≤ pos + fuel → i ≤ pos →
      (∀ m ∈ allMatches re s (s.length + 1) fuel pos i prev,
          pos ≤ m.1 ∧ isMatch s m.1 m.2 ∧ re.doExecute s m.1 = some m ∧
          ((m.1 : Int) = prev → m.1 = pos → m.1 < m.2)) ∧
      (allMatches re s (s.length + 1) fuel pos i prev).Pairwise
          (fun a b => a.2 ≤ b.1 ∧ a.1 < b.1) ∧
      (∀ i' j', pos ≤ i' → isMatch s i' j' →
          (∃ m ∈ allMatches re s (s.length + 1) fuel pos i prev,
            m.1 ≤ i' ∧ (i' < m.2 ∨ (i' = m.2 ∧ isMatch s i' i'))) ∨
          ((i' : Int) = prev ∧ i' = pos ∧ isMatch s i' i')) := by
  intro fuel
  induction fuel with
  | zero =>
    intro pos i prev hf _
    refine ⟨by simp [allMatches], by simp [allMatches], ?_⟩
    intro i' j' hi' hocc
    have := hre.bounds s i' j' hocc
    omega
  | succ f ih =>
    intro pos i prev hf hi
    by_cases hcond : i < s.length + 1 ∧ pos ≤ s.length
    swap
    · rw [allMatches_stop re s _ f pos i prev hcond]
      refine ⟨by simp, by simp, ?_⟩
      intro i' j' hi' hocc
      have := hre.bounds s i' j' hocc
      omega
    cases hd : re.doExecute s pos with
    | none =>
      rw [allMatches_none re s _ f pos i prev hcond hd]
      refine ⟨by simp, by simp, ?_⟩
      intro i' j' hi' hocc
      exact absurd hocc (hre.notFound s pos hcond.2 hd i' j' hi')
    | some m =>
      obtain ⟨m0, m1⟩ := m
      obtain ⟨hpm, hocc0, hcan, hleft⟩ := hre.found s pos m0 m1 hcond.2 hd
      have hm01 : m0 ≤ m1 := (hre.bounds s m0 m1 hocc0).1
      have hm1 : m1 ≤ s.length := (hre.bounds s m0 m1 hocc0).2
      by_cases he : m1 = pos
      · have hm0 : m0 = pos := by omega
        have hempty : isMatch s pos pos := by
          have := hocc0
          rw [hm0, he] at this
          exact this
        obtain ⟨ih1, ih2, ih3⟩ := ih (pos + 1) i (m1 : Int) (by omega) (by omega)
        obtain ⟨ia1, ia2, ia3⟩ := ih (pos + 1) (i + 1) (m1 : Int) (by omega) (by omega)
        by_cases hp : (m0 : Int) = prev
        · rw [allMatches_empty_reject re s _ f pos i m0 m1 prev hcond hd he hp]
          refine ⟨?_, ih2, ?_⟩
          · intro m hm
            obtain ⟨a1, a2, a3, _⟩ := ih1 m hm
            exact ⟨by omega, a2, a3, fun _ h => by omega⟩
          · intro i' j' hi' hocc
            by_cases hip : i' = pos
            · exact Or.inr ⟨by rw [hip, ← hp, hm0], hip, hip ▸ hempty⟩
            · rcases ih3 i' j' (by omega) hocc with h | ⟨h, h', _⟩
              · exact Or.inl h
              · exfalso
                have : (i' : Int) = (pos : Int) := by rw [h, he]
                omega
        · rw [allMatches_empty_accept re s _ f pos i m0 m1 prev hcond hd he hp]
          refine ⟨?_, ?_, ?_⟩
          · intro m hm
            rcases List.mem_cons.1 hm with rfl | hm
            · exact ⟨hpm, hocc0, hcan, fun h => absurd h hp⟩
            · obtain ⟨a1, a2, a3, _⟩ := ia1 m hm
              exact ⟨by omega, a2, a3, fun _ h => by omega⟩
          · rw [List.pairwise_cons]
            refine ⟨?_, ia2⟩
            intro m hm
            obtain ⟨a1, _, _, _⟩ := ia1 m hm
            simp only
            omega
          · intro i' j' hi' hocc
            by_cases hip : i' = pos
            · exact Or.inl ⟨(m0, m1), List.mem_cons_self _ _, by simp only; omega,
                Or.inr ⟨by simp only; omega, hip ▸ hempty⟩⟩
            · rcases ia3 i' j' (by omega) hocc with ⟨m, hm, h⟩ | ⟨h, h', _⟩
              · exact Or.inl ⟨m, List.mem_cons_of_mem _ hm, h⟩
              · exfalso
                have : (i' : Int) = (pos : Int) := by rw [h, he]
                omega
      · obtain ⟨ia1, ia2, ia3⟩ := ih m1 (i + 1) (m1 : Int) (by omega) (by omega)
        rw [allMatches_nonempty re s _ f pos i m0 m1 prev hcond hd he]
        refine ⟨?_, ?_, ?_⟩
        · intro m hm
          rcases List.mem_cons.1 hm with rfl | hm
          · exact ⟨hpm, hocc0, hcan, fun _ h => by simp only at h ⊢; omega⟩
          · obtain ⟨a1, a2, a3, _⟩ := ia1 m hm
            exact ⟨by omega, a2, a3, fun _ h => by omega⟩
        · rw [List.pairwise_cons]
          refine ⟨?_, ia2⟩
          intro m hm
          obtain ⟨a1, _, a3, a4⟩ := ia1 m hm
          simp only
          refine ⟨a1, ?_⟩
          by_contra hnot
          have hm1eq : m.1 = m1 := by omega
          have hm0eq : m0 = m1 := by omega
          have hlt := a4 (by rw [hm1eq]) hm1eq
          rw [hm1eq, ← hm0eq, hcan] at a3
          simp only [Option.some.injEq] at a3
          rw [← a3] at hlt
          simp only at hlt
          omega
        · intro i' j' hi' hocc
          by_cases h1 : i' < m0
          · exact absurd hocc (hleft i' j' hi' h1)
          · by_cases h2 : i' < m1
            · exact Or.inl ⟨(m0, m1), List.mem_cons_self _ _, by simp only; omega,
                Or.inl (by simp only; omega)⟩
            · rcases ia3 i' j' (by omega) hocc with ⟨m, hm, h⟩ | ⟨_, h', hemp⟩
              · exact Or.inl ⟨m, List.mem_cons_of_mem _ hm, h⟩
              · exact Or.inl ⟨(m0, m1), List.mem_cons_self _ _, by simp only; omega,
                  Or.inr ⟨by simp only; omega, hemp⟩⟩

/-- The loop of `allMatches` ends by itself: fuel beyond the length of the text that is
left changes nothing. -/
theorem allMatches_fuel (re : Regexp) (isMatch : List Char → Nat → Nat → Prop)
    (hre : re.LeftmostFirst isMatch) (s : List Char) (n : Nat) :
    ∀ (fuel pos i : Nat) (prev : Int), s.length + 1 ≤ pos + fuel →
      allMatches re s n (fuel + 1) pos i prev = allMatches re s n fuel pos i prev := by
  intro fuel
  induction fuel with
  | zero =>
    intro pos i prev hf
    rw [allMatches_stop re s n 0 pos i prev (by omega)]
    rfl
  | succ f ih =>
    intro pos i prev hf
    by_cases hcond : i < n ∧ pos ≤ s.length
    swap
    · rw [allMatches_stop re s n _ pos i prev hcond, allMatches_stop re s n _ pos i prev hcond]
    cases hd : re.doExecute s pos with
    | none =>
      rw [allMatches_none re s n _ pos i prev hcond hd,
        allMatches_none re s n _ pos i prev hcond hd]
    | some m =>
      obtain ⟨m0, m1⟩ := m
      obtain ⟨hpm, hocc0, _, _⟩ := hre.found s pos m0 m1 hcond.2 hd
      have hm01 : m0 ≤ m1 := (hre.bounds s m0 m1 hocc0).1
      by_cases he : m1 = pos
      · by_cases hp : (m0 : Int) = prev
        · rw [allMatches_empty_reject re s n _ pos i m0 m1 prev hcond hd he hp,
            allMatches_empty_reject re s n _ pos i m0 m1 prev hcond hd he hp]
          exact ih _ _ _ (by omega)
        · rw [allMatches_empty_accept re s n _ pos i m0 m1 prev hcond hd he hp,
            allMatches_empty_accept re s n _ pos i m0 m1 prev hcond hd he hp,
            ih _ _ _ (by omega)]
      · rw [allMatches_nonempty re s n _ pos i m0 m1 prev hcond hd he,
          allMatches_nonempty re s n _ pos i m0 m1 prev hcond hd he, ih _ _ _ (by omega)]

theorem extractLinks_eq_matchPositions (body : List Char) (regex : Regexp) :
    extractLinks body regex =
      (matchPositions regex body).map (fun m => slice body m.1 m.2) := by
  simp [extractLinks, findAllString, matchPositions]

/-- The result of `extractLinks` does not depend on the fuel of the loop: run with any
larger fuel, the loop delivers the same matches. -/
theorem extractLinks_fuel (regex : Regexp) (isMatch : List Char → Nat → Nat → Prop)
    (hre : regex.LeftmostFirst isMatch) (body : List Char) (k : Nat) :
    (allMatches regex body (body.length + 1) (body.length + 1 + k) 0 0 (-1)).map
        (fun m => slice body m.1 m.2) = extractLinks body regex := by
  rw [extractLinks_eq_matchPositions]
  congr 1
  induction k with
  | zero => rfl
  | succ k ih =>
    rw [← ih]
    exact allMatches_fuel regex isMatch hre body _ (body.length + 1 + k) 0 0 (-1) (by omega)

/-! ## `extractLinks` -/

theorem matchPositions_spec (regex : Regexp) (isMatch : List Char → Nat → Nat → Prop)
    (hre : regex.LeftmostFirst isMatch) (body : List Char) :
    (∀ m ∈ matchPositions regex body, isMatch body m.1 m.2) ∧
    (matchPositions regex body).Pairwise (fun a b => a.2 ≤ b.1 ∧ a.1 < b.1) ∧
    (∀ i j, isMatch body i j →
      ∃ m ∈ matchPositions regex body,
        m.1 ≤ i ∧ (i < m.2 ∨ (i = m.2 ∧ isMatch body i i))) := by
  obtain ⟨h1, h2, h3⟩ := allMatches_spec regex isMatch hre body (body.length + 1) 0 0 (-1)
    (by omega) (Nat.le_refl 0)
  refine ⟨fun m hm => (h1 m hm).2.1, h2, ?_⟩
  intro i j hocc
  rcases h3 i j (Nat.zero_le i) hocc with h | ⟨h, _, _⟩
  · exact h
  · omega

/-- C9 fails as stated: the pattern `a*` matches the empty text, and on the empty body
`FindAllString` returns that one empty match, not an empty sequence. -/
theorem extractLinks_empty_body_counterexample :
    extractLinks [] aStar = [[]] ∧ extractLinks [] aStar ≠ [] := by
  decide

/-- C9 (amended): for every compiled pattern, the engine being leftmost-first, on the
empty body `extractLinks` returns an empty sequence when the pattern does not match the
empty text and the sequence of the one empty match when it does, and on every body in
which the pattern has no match it returns an empty sequence; being a total function it
fails on no input. -/
theorem extractLinks_no_match (regex : Regexp) (isMatch : List Char → Nat → Nat → Prop)
    (hre : regex.LeftmostFirst isMatch) (body : List Char) :
    (¬ isMatch [] 0 0 → extractLinks [] regex = []) ∧
    (isMatch [] 0 0 → extractLinks [] regex = [[]]) ∧
    ((∀ i j, ¬ isMatch body i j) → extractLinks body regex = []) := by
  have hnone : ∀ b : List Char, (∀ i j, ¬ isMatch b i j) → extractLinks b regex = [] := by
    intro b hno
    obtain ⟨h1, _, _⟩ := matchPositions_spec regex isMatch hre b
    rw [extractLinks_eq_matchPositions]
    have : matchPositions regex b = [] := by
      rw [List.eq_nil_iff_forall_not_mem]
      intro m hm
      exact hno _ _ (h1 m hm)
    rw [this]
    rfl
  refine ⟨?_, ?_, hnone body⟩
  · intro hemp
    apply hnone
    intro i j hocc
    have hb := hre.bounds [] i j hocc
    simp only [List.length_nil] at hb
    have hi : i = 0 := by omega
    have hj : j = 0 := by omega
    subst hi hj
    exact hemp hocc
  · intro hemp
    rw [extractLinks_eq_matchPositions]
    have hcond : 0 < ([] : List Char).length + 1 ∧ 0 ≤ ([] : List Char).length := by simp
    cases hd : regex.doExecute [] 0 with
    | none => exact absurd hemp (hre.notFound [] 0 (Nat.le_refl _) hd 0 0 (Nat.le_refl _))
    | some m =>
      obtain ⟨m0, m1⟩ := m
      obtain ⟨_, hocc, _, _⟩ := hre.found [] 0 m0 m1 (Nat.le_refl _) hd
      have hb := hre.bounds [] m0 m1 hocc
      simp only [List.length_nil] at hb
      have h0 : m0 = 0 := by omega
      have h1 : m1 = 0 := by omega
      subst h0 h1
      have hstep := allMatches_empty_accept regex [] (([] : List Char).length + 1) 0 0 0 0 0
        (-1) hcond hd rfl (by decide)
      simp only [matchPositions, List.length_nil, Nat.zero_add] at hstep ⊢
      rw [hstep]
      simp [allMatches, slice]

/-- Instance of C9 (amended): the default pattern does not match the empty text and has no
match in a page without a document link. -/
theorem extractLinks_no_match_witness :
    defaultPattern.LeftmostFirst (Occurs defaultPatternTree) ∧
    ¬ Occurs defaultPatternTree [] 0 0 ∧
    extractLinks [] defaultPattern = [] ∧
    (∀ i j, ¬ Occurs defaultPatternTree "<html>no documents here</html>".toList i j) ∧
    extractLinks "<html>no documents here</html>".toList defaultPattern = [] :=
  have hno0 : ¬ Occurs defaultPatternTree [] 0 0 :=
    compile_notFound defaultPatternTree [] 0 (by decide) 0 0 (Nat.le_refl 0)
  have hno : ∀ i j, ¬ Occurs defaultPatternTree "<html>no documents here</html>".toList i j :=
    fun i j => compile_notFound defaultPatternTree _ 0 (by decide) i j (Nat.zero_le i)
  ⟨compile_leftmostFirst defaultPatternTree, hno0,
    (extractLinks_no_match defaultPattern (Occurs defaultPatternTree)
      (compile_leftmostFirst defaultPatternTree) []).1 hno0,
    hno,
    (extractLinks_no_match defaultPattern (Occurs defaultPatternTree)
      (compile_leftmostFirst defaultPatternTree)
      "<html>no documents here</html>".toList).2.2 hno⟩

end IdorEnum
